import Mathlib

/-!
Verification of the release-notes tooling: a shallow embedding of
`release-notes.py` (section extraction, content cleaning, opt-out
detection, category parsing, validation, multi-PR changelog aggregation)
and `update-changelog.py` (semver-ordered changelog insertion).
Strings are modelled as `List Char`; Python functions become Lean
functions over them.
-/

namespace ReleaseNotes

/-- Coerce a Lean string literal to the `List Char` representation used
throughout the embedding. -/
def str (s : String) : List Char := s.data

/-- The six ASCII whitespace characters recognised by Python's `str.strip`
and by `\s` in its regexes (for the ASCII inputs this tooling handles). -/
def isSpaceB (c : Char) : Bool :=
  c = ' ' || c = '\t' || c = '\n' || c = '\r' || c = '\x0b' || c = '\x0c'

/-- Remove trailing whitespace, as the right half of Python `str.strip`. -/
def stripRight (l : List Char) : List Char :=
  (l.reverse.dropWhile isSpaceB).reverse

/-- Python `str.strip()`: drop leading and trailing whitespace. -/
def pyStrip (l : List Char) : List Char :=
  stripRight (l.dropWhile isSpaceB)

/-- Python `str.split(sep)` for a single-character separator: always returns
at least one (possibly empty) piece. -/
def splitOnC (sep : Char) : List Char → List (List Char)
  | [] => [[]]
  | c :: cs =>
    if c = sep then [] :: splitOnC sep cs
    else
      match splitOnC sep cs with
      | [] => [[c]]
      | p :: ps => (c :: p) :: ps

/-- `content.split('\n')`. -/
def splitNL (l : List Char) : List (List Char) := splitOnC '\n' l

/-- Python `'\n'.join(lines)`. -/
def joinNL : List (List Char) → List Char
  | [] => []
  | [l] => l
  | l :: ls => l ++ '\n' :: joinNL ls

/-- Scan for the first occurrence of the comment closer `-->` and return the
suffix after it, as the lazy `.*?-->` part of the regex `<!--.*?-->` does. -/
def dropToClose : List Char → Option (List Char)
  | [] => none
  | c :: cs =>
    if (str "-->").isPrefixOf (c :: cs) then some (cs.drop 2)
    else dropToClose cs

/-- Fuelled scanner for `re.sub(r'<!--.*?-->', '', content, flags=re.DOTALL)`:
left to right, non-overlapping, the scan resumes after each removed match and
never rescans earlier output. Fuel bounds the number of scan steps; each step
consumes at least one character, so `l.length` fuel always suffices. -/
def removeCommentsAux : Nat → List Char → List Char
  | _, [] => []
  | 0, l => l
  | fuel + 1, c :: cs =>
    if (str "<!--").isPrefixOf (c :: cs) then
      match dropToClose (cs.drop 3) with
      | some rest => removeCommentsAux fuel rest
      | none => c :: removeCommentsAux fuel cs
    else c :: removeCommentsAux fuel cs

/-- `re.sub(r'<!--.*?-->', '', content, flags=re.DOTALL)`. -/
def removeComments (l : List Char) : List Char :=
  removeCommentsAux l.length l

/-- The part of a whitespace run strictly after its last newline. -/
def afterLastNL (ws : List Char) : List Char :=
  (ws.reverse.takeWhile (fun c => c ≠ '\n')).reverse

/-- Fuelled scanner for `re.sub(r'\n\s*\n', '\n', content)`: at a newline whose
following maximal whitespace run contains another newline, the greedy `\s*`
backtracks so the match ends at the last newline of the run; the match is
replaced by a single newline and scanning resumes after it. -/
def subNLAux : Nat → List Char → List Char
  | _, [] => []
  | 0, l => l
  | fuel + 1, c :: cs =>
    if c = '\n' then
      let ws := cs.takeWhile isSpaceB
      if '\n' ∈ ws then
        '\n' :: subNLAux fuel (afterLastNL ws ++ cs.drop ws.length)
      else c :: subNLAux fuel cs
    else c :: subNLAux fuel cs

/-- `re.sub(r'\n\s*\n', '\n', content)`. -/
def collapseNL (l : List Char) : List Char :=
  subNLAux l.length l

/-- `clean_content` from release-notes.py: strip HTML comments, strip each
line, collapse newline runs, and strip the whole result. -/
def clean_content (s : List Char) : List Char :=
  pyStrip (collapseNL (joinNL ((splitNL (removeComments s)).map pyStrip)))

/-- Python `str.upper()` on the ASCII content this tooling handles. -/
def toUpperL (l : List Char) : List Char := l.map Char.toUpper

/-- `is_opt_out` from release-notes.py: the cleaned content, uppercased,
equals the literal `NONE`. -/
def is_opt_out (content : List Char) : Bool :=
  toUpperL (clean_content content) == str "NONE"

/-- The fixed closed set of valid category names (`VALID_CATEGORIES`). -/
def VALID_CATEGORIES : List (List Char) :=
  [str "Added", str "Changed", str "Deprecated", str "Removed", str "Fixed", str "Security"]

/-- `re.match(r'^###\s+(.+)$', line)` followed by `group(1).strip()`: a
level-3 heading needs `###`, then at least one whitespace character, then at
least one further character; the returned text is the trimmed remainder.
When everything after the whitespace run is empty but the run has length at
least two, the greedy `\s+` backtracks one character into `.+`, so the match
succeeds with a group that strips to the empty string. -/
def categoryHeading (line : List Char) : Option (List Char) :=
  if (str "###").isPrefixOf line then
    let r := line.drop 3
    let w := r.takeWhile isSpaceB
    if w = [] then none
    else
      let rest := r.drop w.length
      if rest ≠ [] then some (pyStrip rest)
      else if 2 ≤ w.length then some []
      else none
  else none

/-- The parsed release notes: a mapping from category name to entries, with
Python-dict insertion order made explicit as an association list. -/
abbrev Mapping := List (List Char × List (List Char))

/-- `category in dict`. -/
def containsKeyB (m : Mapping) (k : List Char) : Bool :=
  m.any (fun p => p.1 == k)

/-- `dict[category]`, defaulting to `[]` for an absent key. -/
def lookupM (m : Mapping) (k : List Char) : List (List Char) :=
  match m.find? (fun p => p.1 == k) with
  | some p => p.2
  | none => []

/-- `if category not in dict: dict[category] = []`. -/
def ensureKey (m : Mapping) (k : List Char) : Mapping :=
  if containsKeyB m k then m else m ++ [(k, [])]

/-- `dict[category].append(entry)`. -/
def appendEntry (m : Mapping) (k : List Char) (e : List Char) : Mapping :=
  m.map (fun p => if p.1 == k then (p.1, p.2 ++ [e]) else p)

/-- One iteration of the `parse_release_notes` loop: the state is the mapping
built so far together with the current category (`None` initially and after
an invalid heading). -/
def parseStep (st : Mapping × Option (List Char)) (rawLine : List Char) :
    Mapping × Option (List Char) :=
  let line := pyStrip rawLine
  if line = [] then st
  else
    match categoryHeading line with
    | some category =>
      if category ∈ VALID_CATEGORIES then (ensureKey st.1 category, some category)
      else (st.1, none)
    | none =>
      if line.head? = some '-' ∨ line.head? = some '*' then
        match st.2 with
        | some cat =>
          let entry := pyStrip (line.drop 1)
          if entry ≠ [] then (appendEntry st.1 cat entry, st.2) else st
        | none => st
      else st

/-- `parse_release_notes` from release-notes.py. -/
def parse_release_notes (content : List Char) : Mapping :=
  ((splitNL (clean_content content)).foldl parseStep ([], none)).1

/-- Case-insensitive literal match (the pattern is given lowercase), returning
the remainder on success; models `re.IGNORECASE` on the ASCII phrases of the
section-heading regex. -/
def ciPrefix : List Char → List Char → Option (List Char)
  | [], l => some l
  | _ :: _, [] => none
  | p :: ps, c :: cs => if c.toLower = p then ciPrefix ps cs else none

/-- Match `\s+` (at least one whitespace character, maximal run), returning
whether the last consumed character was a newline together with the
remainder. The greedy run is forced maximal because every literal that
follows it in the heading regex starts with a non-whitespace character. -/
def matchWS1 (l : List Char) : Option (Bool × List Char) :=
  let w := l.takeWhile isSpaceB
  if w = [] then none
  else some (w.getLast? = some '\n', l.drop w.length)

/-- Try `##\s+Release\s+Notes\s+` at this position; on success return whether
the position after the final whitespace run sits at a line start, and the
remainder of the text. -/
def tryHeading (l : List Char) : Option (Bool × List Char) :=
  match ciPrefix (str "##") l with
  | none => none
  | some r1 =>
    match matchWS1 r1 with
    | none => none
    | some (_, r2) =>
      match ciPrefix (str "release") r2 with
      | none => none
      | some r3 =>
        match matchWS1 r3 with
        | none => none
        | some (_, r4) =>
          match ciPrefix (str "notes") r4 with
          | none => none
          | some r5 => matchWS1 r5

/-- Scan for the leftmost line-start position where the heading matches, as
`re.search` with `(?m)^` does; the flag records whether the current position
is a line start. -/
def findHeadingAux : Bool → List Char → Option (Bool × List Char)
  | _, [] => none
  | atLS, c :: cs =>
    if atLS then
      match tryHeading (c :: cs) with
      | some r => some r
      | none => findHeadingAux (c = '\n') cs
    else findHeadingAux (c = '\n') cs

/-- The lookahead `^##\s`: a line start followed by `##` and one whitespace
character. -/
def isTermHead : List Char → Bool
  | '#' :: '#' :: d :: _ => isSpaceB d
  | _ => false

/-- The lazy group `([\s\S]*?)(?=^##\s|\Z)`: collect characters until the
first position satisfying the lookahead, or the end of the text. -/
def takeSection : Bool → List Char → List Char
  | _, [] => []
  | atLS, c :: cs =>
    if atLS ∧ isTermHead (c :: cs) = true then []
    else c :: takeSection (c = '\n') cs

/-- `extract_release_notes_section` from release-notes.py. -/
def extract_release_notes_section (pr_body : List Char) : Option (List Char) :=
  if pr_body = [] then none
  else
    match findHeadingAux true pr_body with
    | none => none
    | some (atLS, rest) => some (pyStrip (takeSection atLS rest))

/-- Join with `', '`, as Python `', '.join`. -/
def joinCommaSpace : List (List Char) → List Char
  | [] => []
  | [l] => l
  | l :: ls => l ++ ',' :: ' ' :: joinCommaSpace ls

/-- `validate_release_notes` from release-notes.py: the triple of validity
flag, message, and optional category mapping. -/
def validate_release_notes (pr_body : List Char) :
    Bool × List Char × Option Mapping :=
  match extract_release_notes_section pr_body with
  | none => (false, str "Release Notes section not found in PR description", none)
  | some release_notes =>
    if is_opt_out release_notes then
      (true, str "Release notes opted out (NONE)", none)
    else
      let categories := parse_release_notes release_notes
      if categories = [] then
        (false, str "Release notes must contain at least one valid category (Added, Changed, Deprecated, Removed, Fixed, Security) with entries, or 'NONE' to opt out", none)
      else
        let empty_categories := (categories.filter (fun p => p.2 = [])).map (fun p => p.1)
        if empty_categories ≠ [] then
          (false, str "Categories " ++ joinCommaSpace empty_categories ++ str " have no entries", none)
        else
          (true, str "Release notes are valid", some categories)

/-- Python `pat in text` for strings: `pat` occurs contiguously in `text`. -/
def containsSub : List Char → List Char → Bool
  | text, pat =>
    match text with
    | [] => pat.isEmpty
    | _ :: cs => pat.isPrefixOf text || containsSub cs pat

/-- A PR record as read from the aggregator's JSON input. -/
structure PR where
  number : Nat
  url : List Char
  author : List Char
  author_url : List Char
  body : List Char
deriving DecidableEq

/-- The token `f"#{pr_number}"`. -/
def prToken (pr : PR) : List Char := '#' :: (toString pr.number).data

/-- The attribution suffix ` [#<n>](<url>) [<author>](<author-url>)`. -/
def attribution (pr : PR) : List Char :=
  str " [" ++ prToken pr ++ str "](" ++ pr.url ++ str ") [" ++ pr.author
    ++ str "](" ++ pr.author_url ++ str ")"

/-- Per-entry formatting in `format_changelog_from_prs`: append the
attribution suffix unless the entry already contains the PR-number token or
the PR URL. -/
def formatEntry (pr : PR) (entry : List Char) : List Char :=
  if containsSub entry (prToken pr) = false ∧ containsSub entry pr.url = false then
    entry ++ attribution pr
  else entry

/-- The inner entry loop: format each entry and append it to the category's
list unless an identical formatted string is already present. -/
def addEntries (pr : PR) (cat : List Char) (m : Mapping) :
    List (List Char) → Mapping
  | [] => m
  | e :: es =>
    let fe := formatEntry pr e
    if fe ∈ lookupM m cat then addEntries pr cat m es
    else addEntries pr cat (appendEntry m cat fe) es

/-- The per-PR step of the aggregation loop: skip the record when the section
is absent or opted out, otherwise merge its parsed categories. -/
def aggregatePR (m : Mapping) (pr : PR) : Mapping :=
  match extract_release_notes_section pr.body with
  | none => m
  | some release_notes =>
    if is_opt_out release_notes then m
    else
      (parse_release_notes release_notes).foldl
        (fun acc p => addEntries pr p.1 (ensureKey acc p.1) p.2) m

/-- Collect all entries by category across all PRs. -/
def aggregateAll (prs : List PR) : Mapping :=
  prs.foldl aggregatePR []

/-- The fixed rendering order (`category_order`). -/
def category_order : List (List Char) :=
  [str "Added", str "Changed", str "Deprecated", str "Removed", str "Fixed", str "Security"]

/-- The rendering loop: for each canonical category that is present with at
least one entry, a heading line, one bullet line per entry, and a blank
separator line. -/
def renderLines (m : Mapping) : List (List Char) :=
  category_order.foldl
    (fun acc cat =>
      if containsKeyB m cat = true ∧ lookupM m cat ≠ [] then
        acc ++ (str "### " ++ cat) :: (lookupM m cat).map (fun e => str "- " ++ e) ++ [[]]
      else acc) []

/-- `format_changelog_from_prs` from release-notes.py, with the JSON file
read replaced by an explicit list of PR records. -/
def format_changelog_from_prs (prs : List PR) : List Char :=
  pyStrip (joinNL (renderLines (aggregateAll prs)))

/-- `version.lstrip('v')`: remove every leading `v`. -/
def lstripV (l : List Char) : List Char := l.dropWhile (fun c => c = 'v')

/-- Decimal digits to a natural number. -/
def digitsToNat (l : List Char) : Nat :=
  l.foldl (fun n c => 10 * n + (c.toNat - '0'.toNat)) 0

/-- Modelled subset of `packaging.version.Version` parsing: a dotted sequence
of non-empty decimal components (the release segment of a PEP 440 version);
anything else — such as `latest` — fails to parse, as `Version(...)` raises
on it. -/
def parseVersion (l : List Char) : Option (List Nat) :=
  let parts := splitOnC '.' l
  if parts.all (fun p => decide (p ≠ []) && p.all Char.isDigit) then
    some (parts.map digitsToNat)
  else none

/-- Whether every component of a release segment is zero. -/
def allZero : List Nat → Bool
  | [] => true
  | n :: ns => decide (n = 0) && allZero ns

/-- Strict comparison of release segments, shorter one padded with zeros, as
`packaging.version.Version` compares purely numeric versions. -/
def versionLt : List Nat → List Nat → Bool
  | [], bs => !allZero bs
  | a :: as, [] => decide (a = 0) && versionLt as []
  | a :: as, b :: bs => decide (a < b) || (decide (a = b) && versionLt as bs)

/-- A match of the version-header regex: its start offset in the document and
its captured version string. -/
structure VMatch where
  start : Nat
  version : List Char
deriving DecidableEq

/-- Try the regex `## \[([^\]]+)\] - \d{4}-\d{2}-\d{2}` at this position,
returning the captured group and the total match length. The greedy
`[^\]]+` cannot cross `]`, so it deterministically captures the maximal run
of non-`]` characters. -/
def tryHeaderAt (l : List Char) : Option (List Char × Nat) :=
  if (str "## [").isPrefixOf l then
    let r := l.drop 4
    let g := r.takeWhile (fun c => c ≠ ']')
    if g = [] then none
    else
      let r2 := r.drop g.length
      if (str "] - ").isPrefixOf r2 then
        let d := r2.drop 4
        if 10 ≤ d.length ∧ (d.take 4).all Char.isDigit = true ∧ (d.drop 4).head? = some '-'
            ∧ ((d.drop 5).take 2).all Char.isDigit = true ∧ (d.drop 7).head? = some '-'
            ∧ ((d.drop 8).take 2).all Char.isDigit = true then
          some (g, 4 + g.length + 4 + 10)
        else none
      else none
  else none

/-- Fuelled scanner for `re.finditer` of the version-header regex: leftmost
matches, non-overlapping, resuming after each match. -/
def findVHAux : Nat → Nat → List Char → List VMatch
  | _, _, [] => []
  | 0, _, _ => []
  | fuel + 1, pos, c :: cs =>
    match tryHeaderAt (c :: cs) with
    | some (g, len) => ⟨pos, g⟩ :: findVHAux fuel (pos + len) ((c :: cs).drop len)
    | none => findVHAux fuel (pos + 1) cs

/-- All version-header matches of the document, in document order. -/
def findVersionHeaders (content : List Char) : List VMatch :=
  findVHAux content.length 0 content

/-- `re.search(r'## \[Unreleased\]\s*\n', content)`, returning the end offset
of the first match: the greedy `\s*` backtracks so the match ends at the
last newline of the maximal whitespace run after the literal. -/
def findUnrAux : Nat → List Char → Option Nat
  | _, [] => none
  | pos, c :: cs =>
    if (str "## [Unreleased]").isPrefixOf (c :: cs) then
      let ws := ((c :: cs).drop 15).takeWhile isSpaceB
      if '\n' ∈ ws then some (pos + 15 + (ws.length - (afterLastNL ws).length))
      else findUnrAux (pos + 1) cs
    else findUnrAux (pos + 1) cs

/-- The end offset of the `## [Unreleased]` heading match, if any. -/
def findUnreleasedEnd (content : List Char) : Option Nat :=
  findUnrAux 0 content

/-- The search-start boundary: version headers before it are never insertion
candidates. -/
def searchStartOf (content : List Char) : Nat :=
  match findUnreleasedEnd content with
  | some e => e
  | none => 0

/-- The insertion-point loop of `update_changelog`: in document order, skip
matches before the boundary and matches whose version string does not parse;
stop at the first remaining match whose version is strictly less than the
new version. -/
def findInsertPos : List VMatch → Nat → List Nat → Option Nat
  | [], _, _ => none
  | m :: ms, ss, newv =>
    if m.start < ss then findInsertPos ms ss newv
    else
      match parseVersion (lstripV m.version) with
      | none => findInsertPos ms ss newv
      | some ev => if versionLt ev newv then some m.start else findInsertPos ms ss newv

/-- `update_changelog` from update-changelog.py as a pure document
transformation: `none` exactly when the new version string fails to parse
(`Version(...)` raises). -/
def update_changelog (content version date entriesRaw : List Char) :
    Option (List Char) :=
  let changelog_entries := pyStrip entriesRaw
  let new_section :=
    str "## [" ++ version ++ str "] - " ++ date ++ str "\n\n"
      ++ changelog_entries ++ str "\n\n"
  match parseVersion (lstripV version) with
  | none => none
  | some newv =>
    match findInsertPos (findVersionHeaders content) (searchStartOf content) newv with
    | some p => some (content.take p ++ new_section ++ content.drop p)
    | none =>
      match findUnreleasedEnd content with
      | some e =>
        if (content.drop e).head? ≠ some '\n' then
          some (content.take e ++ '\n' :: new_section ++ content.drop e)
        else some (content.take e ++ new_section ++ content.drop e)
      | none => some (new_section ++ content)

/-- Rendering contract stated from the spec's words, for comparison with the
implementation: iterate the canonical category order, keep the categories
that are present with at least one entry, render each as a `###` heading
with one `- ` bullet line per entry, and separate consecutive category
blocks by a single blank line, with no leading or trailing blank. -/
def renderSpec (m : Mapping) : List Char :=
  joinDoubleNL
    ((category_order.filter
        (fun cat => containsKeyB m cat = true ∧ lookupM m cat ≠ [])).map
      (fun cat => joinNL ((str "### " ++ cat) :: (lookupM m cat).map (fun e => str "- " ++ e))))
where
  joinDoubleNL : List (List Char) → List Char
    | [] => []
    | [b] => b
    | b :: bs => b ++ '\n' :: '\n' :: joinDoubleNL bs

/-! ### Lemmas about trimming -/

theorem stripRight_append_ws {c : Char} (l : List Char) (h : isSpaceB c = true) :
    stripRight (l ++ [c]) = stripRight l := by
  simp [stripRight, List.dropWhile, h]

theorem dropWhile_eq_self_of_head {l : List Char}
    (h : ∀ c, l.head? = some c → isSpaceB c = false) :
    l.dropWhile isSpaceB = l := by
  cases l with
  | nil => rfl
  | cons c cs => simp [List.dropWhile, h c rfl]

theorem stripRight_eq_self_of_last {l : List Char}
    (h : ∀ c, l.getLast? = some c → isSpaceB c = false) :
    stripRight l = l := by
  have h' : ∀ c, l.reverse.head? = some c → isSpaceB c = false := by
    intro c hc
    exact h c (by simpa using hc)
  simp [stripRight, dropWhile_eq_self_of_head h']

theorem pyStrip_eq_self_of_ends {l : List Char}
    (h1 : ∀ c, l.head? = some c → isSpaceB c = false)
    (h2 : ∀ c, l.getLast? = some c → isSpaceB c = false) :
    pyStrip l = l := by
  rw [pyStrip, dropWhile_eq_self_of_head h1, stripRight_eq_self_of_last h2]

theorem head_dropWhile {l : List Char} {c : Char}
    (h : (l.dropWhile isSpaceB).head? = some c) : isSpaceB c = false := by
  induction l with
  | nil => simp [List.dropWhile] at h
  | cons a l ih =>
    by_cases ha : isSpaceB a
    · rw [List.dropWhile_cons_of_pos ha] at h
      exact ih h
    · rw [List.dropWhile_cons_of_neg ha] at h
      simp at h
      simpa [h] using ha

theorem head_stripRight {l : List Char} {c : Char}
    (h : (stripRight l).head? = some c) : l.head? = some c := by
  have hpre : stripRight l <+: l := by
    rw [stripRight]
    have h0 : l.reverse.dropWhile isSpaceB <:+ l.reverse := List.dropWhile_suffix _
    rw [← List.reverse_reverse (l.reverse.dropWhile isSpaceB)] at h0
    exact List.reverse_suffix.mp h0
  obtain ⟨t, ht⟩ := hpre
  cases hs : stripRight l with
  | nil => rw [hs] at h; simp at h
  | cons a r =>
    rw [hs] at h ht
    simp at h
    rw [← ht]
    simp [h]

theorem head_pyStrip {l : List Char} {c : Char}
    (h : (pyStrip l).head? = some c) : isSpaceB c = false :=
  head_dropWhile (head_stripRight h)

theorem getLast_pyStrip {l : List Char} {c : Char}
    (h : (pyStrip l).getLast? = some c) : isSpaceB c = false := by
  rw [pyStrip, stripRight, List.getLast?_reverse] at h
  exact head_dropWhile h

theorem pyStrip_idem (l : List Char) : pyStrip (pyStrip l) = pyStrip l := by
  exact pyStrip_eq_self_of_ends (fun c hc => head_pyStrip hc) (fun c hc => getLast_pyStrip hc)

theorem mem_pyStrip {l : List Char} {c : Char} (h : c ∈ pyStrip l) : c ∈ l := by
  rw [pyStrip, stripRight] at h
  have h1 := (List.dropWhile_sublist (l := (l.dropWhile isSpaceB).reverse) (p := isSpaceB)).subset
  have h2 := (List.dropWhile_sublist (l := l) (p := isSpaceB)).subset
  rw [List.mem_reverse] at h
  have := h1 h
  rw [List.mem_reverse] at this
  exact h2 this

/-! ### Lemmas about splitting and joining lines -/

theorem splitOnC_ne_nil (sep : Char) (l : List Char) : splitOnC sep l ≠ [] := by
  cases l with
  | nil => simp [splitOnC]
  | cons c cs =>
    rw [splitOnC]
    by_cases h : c = sep
    · simp [h]
    · simp only [if_neg h]
      cases splitOnC sep cs <;> simp

theorem not_mem_of_mem_splitOnC {sep : Char} {l : List Char} {p : List Char}
    (hp : p ∈ splitOnC sep l) : sep ∉ p := by
  induction l generalizing p with
  | nil => simp [splitOnC] at hp; simp [hp]
  | cons c cs ih =>
    rw [splitOnC] at hp
    by_cases h : c = sep
    · rw [if_pos h] at hp
      rcases List.mem_cons.mp hp with hp | hp
      · simp [hp]
      · exact ih hp
    · rw [if_neg h] at hp
      rcases hq : splitOnC sep cs with _ | ⟨q, qs⟩
      · exact absurd hq (splitOnC_ne_nil sep cs)
      · rw [hq] at hp
        rcases List.mem_cons.mp hp with hp | hp
        · subst hp
          intro hmem
          rcases List.mem_cons.mp hmem with hmem | hmem
          · exact h hmem.symm
          · have hq' : q ∈ splitOnC sep cs := by
              rw [hq]; exact List.mem_cons_self q qs
            exact ih hq' hmem
        · have hp' : p ∈ splitOnC sep cs := by
            rw [hq]; exact List.mem_cons_of_mem q hp
          exact ih hp'

theorem splitOnC_eq_single {sep : Char} {l : List Char} (h : sep ∉ l) :
    splitOnC sep l = [l] := by
  induction l with
  | nil => rfl
  | cons c cs ih =>
    have hc : ¬ c = sep := by intro hc; exact h (by simp [hc])
    have hcs : sep ∉ cs := fun hm => h (List.mem_cons_of_mem c hm)
    rw [splitOnC, if_neg hc, ih hcs]

theorem splitOnC_append_sep {sep : Char} {l r : List Char} (h : sep ∉ l) :
    splitOnC sep (l ++ sep :: r) = l :: splitOnC sep r := by
  induction l with
  | nil => simp [splitOnC]
  | cons c cs ih =>
    have hc : ¬ c = sep := by intro hc; exact h (by simp [hc])
    have hcs : sep ∉ cs := fun hm => h (List.mem_cons_of_mem c hm)
    rw [List.cons_append, splitOnC, if_neg hc, ih hcs]

theorem joinNL_cons_of_ne {l : List Char} {ls : List (List Char)} (h : ls ≠ []) :
    joinNL (l :: ls) = l ++ '\n' :: joinNL ls := by
  cases ls with
  | nil => exact absurd rfl h
  | cons a as => rfl

theorem splitNL_joinNL {ls : List (List Char)} (hnl : ∀ l ∈ ls, '\n' ∉ l)
    (hne : ls ≠ []) : splitNL (joinNL ls) = ls := by
  induction ls with
  | nil => exact absurd rfl hne
  | cons l rest ih =>
    cases rest with
    | nil => exact splitOnC_eq_single (hnl l (by simp))
    | cons a as =>
      rw [joinNL_cons_of_ne (by simp)]
      rw [splitNL] at ih ⊢
      rw [splitOnC_append_sep (hnl l (by simp))]
      rw [ih (fun x hx => hnl x (List.mem_cons_of_mem l hx)) (by simp)]

/-! ### Step lemmas for the newline-collapsing regex -/

theorem afterLastNL_length_lt {ws : List Char} (h : '\n' ∈ ws) :
    (afterLastNL ws).length < ws.length := by
  rw [afterLastNL, List.length_reverse]
  have hpre := List.takeWhile_prefix (l := ws.reverse) (p := fun c => c ≠ '\n')
  have hlen := hpre.length_le
  rw [List.length_reverse] at hlen
  rcases lt_or_eq_of_le hlen with hlt | heq
  · exact hlt
  · exfalso
    have hall := hpre.eq_of_length (by rw [heq, List.length_reverse])
    have : ('\n' : Char) ∈ ws.reverse.takeWhile (fun c => c ≠ '\n') := by
      rw [hall]; simpa using h
    have := List.mem_takeWhile_imp this
    simp at this

theorem subNLAux_congr : ∀ (f g : Nat) (l : List Char),
    l.length ≤ f → l.length ≤ g → subNLAux f l = subNLAux g l := by
  intro f
  induction f with
  | zero =>
    intro g l hf _
    have : l = [] := List.length_eq_zero.mp (Nat.le_zero.mp hf)
    subst this
    cases g <;> rfl
  | succ f ih =>
    intro g l hf hg
    cases l with
    | nil => cases g <;> rfl
    | cons c cs =>
      cases g with
      | zero => simp at hg
      | succ g =>
        rw [subNLAux, subNLAux]
        simp only [List.length_cons, Nat.succ_le_succ_iff] at hf hg
        by_cases hc : c = '\n'
        · simp only [if_pos hc]
          by_cases hw : '\n' ∈ cs.takeWhile isSpaceB
          · simp only [if_pos hw]
            have hwlen : (cs.takeWhile isSpaceB).length ≤ cs.length :=
              (List.takeWhile_prefix _).length_le
            have harg :
                (afterLastNL (cs.takeWhile isSpaceB) ++ cs.drop (cs.takeWhile isSpaceB).length).length
                  ≤ cs.length - 1 := by
              rw [List.length_append, List.length_drop]
              have := afterLastNL_length_lt hw
              omega
            have h1 : (afterLastNL (cs.takeWhile isSpaceB) ++ cs.drop (cs.takeWhile isSpaceB).length).length ≤ f := by
              omega
            have h2 : (afterLastNL (cs.takeWhile isSpaceB) ++ cs.drop (cs.takeWhile isSpaceB).length).length ≤ g := by
              omega
            rw [ih g _ h1 h2]
          · simp only [if_neg hw]
            rw [ih g cs hf hg]
        · simp only [if_neg hc]
          rw [ih g cs hf hg]

theorem collapseNL_cons_not_nl {c : Char} (cs : List Char) (h : ¬ c = '\n') :
    collapseNL (c :: cs) = c :: collapseNL cs := by
  rw [collapseNL, collapseNL, List.length_cons, subNLAux, if_neg h]

theorem collapseNL_cons_nl_nomatch {cs : List Char}
    (h : '\n' ∉ cs.takeWhile isSpaceB) :
    collapseNL ('\n' :: cs) = '\n' :: collapseNL cs := by
  rw [collapseNL, collapseNL, List.length_cons, subNLAux, if_pos rfl, if_neg h]

theorem collapseNL_cons_nl_match {cs : List Char}
    (h : '\n' ∈ cs.takeWhile isSpaceB) :
    collapseNL ('\n' :: cs)
      = '\n' :: collapseNL (afterLastNL (cs.takeWhile isSpaceB)
          ++ cs.drop (cs.takeWhile isSpaceB).length) := by
  rw [collapseNL, collapseNL, List.length_cons, subNLAux, if_pos rfl, if_pos h]
  have hwlen : (cs.takeWhile isSpaceB).length ≤ cs.length :=
    (List.takeWhile_prefix _).length_le
  have harg :
      (afterLastNL (cs.takeWhile isSpaceB) ++ cs.drop (cs.takeWhile isSpaceB).length).length
        ≤ cs.length := by
    rw [List.length_append, List.length_drop]
    have := afterLastNL_length_lt h
    omega
  rw [subNLAux_congr cs.length _ _ harg (le_refl _)]

theorem collapseNL_append_nonl {p : List Char} (r : List Char) (h : '\n' ∉ p) :
    collapseNL (p ++ r) = p ++ collapseNL r := by
  induction p with
  | nil => rfl
  | cons c cs ih =>
    have hc : ¬ c = '\n' := fun hc => h (by simp [hc])
    have hcs : '\n' ∉ cs := fun hm => h (List.mem_cons_of_mem c hm)
    rw [List.cons_append, collapseNL_cons_not_nl _ hc, ih hcs, List.cons_append]

theorem collapseNL_of_nonl {p : List Char} (h : '\n' ∉ p) : collapseNL p = p := by
  have h0 : collapseNL ([] : List Char) = [] := rfl
  have := collapseNL_append_nonl [] h
  rw [h0] at this
  simpa using this

/-! ### Characterization of `clean_content` -/

/-- Lines as they stand after the per-line strip: each is trimmed and
newline-free. -/
def GoodLines (ls : List (List Char)) : Prop :=
  ∀ l ∈ ls, pyStrip l = l ∧ '\n' ∉ l

theorem head_of_trimmed {l : List Char} (ht : pyStrip l = l) {c : Char}
    (hc : l.head? = some c) : isSpaceB c = false :=
  head_pyStrip (ht.symm ▸ hc)

theorem getLast_of_trimmed {l : List Char} (ht : pyStrip l = l) {c : Char}
    (hc : l.getLast? = some c) : isSpaceB c = false :=
  getLast_pyStrip (ht.symm ▸ hc)

theorem takeWhile_joinNL_replicate {ls : List (List Char)} (hg : GoodLines ls) :
    ∃ k, (joinNL ls).takeWhile isSpaceB = List.replicate k '\n' := by
  induction ls with
  | nil => exact ⟨0, rfl⟩
  | cons l rest ih =>
    have hl := hg l (by simp)
    have hrest : GoodLines rest := fun x hx => hg x (List.mem_cons_of_mem l hx)
    cases l with
    | cons c cl =>
      have hc : isSpaceB c = false := head_of_trimmed hl.1 rfl
      refine ⟨0, ?_⟩
      cases rest with
      | nil => simp [joinNL, List.takeWhile_cons, hc]
      | cons a as =>
        rw [joinNL_cons_of_ne (by simp), List.cons_append, List.takeWhile_cons, hc]
        simp
    | nil =>
      cases rest with
      | nil => exact ⟨0, rfl⟩
      | cons a as =>
        rw [joinNL_cons_of_ne (by simp), List.nil_append]
        obtain ⟨k, hk⟩ := ih hrest
        refine ⟨k + 1, ?_⟩
        rw [List.takeWhile_cons]
        simp only [show isSpaceB '\n' = true from rfl, if_pos]
        rw [hk, List.replicate_succ]

theorem afterLastNL_replicate (k : Nat) :
    afterLastNL (List.replicate k '\n') = [] := by
  cases k with
  | zero => rfl
  | succ k =>
    rw [afterLastNL, List.reverse_replicate, List.replicate_succ, List.takeWhile_cons]
    simp

/-- Collapsing a run of newlines: a leading double newline behaves like a
single one. -/
theorem collapseNL_nl_nl {ls : List (List Char)} (hg : GoodLines ls) :
    collapseNL ('\n' :: '\n' :: joinNL ls) = collapseNL ('\n' :: joinNL ls) := by
  obtain ⟨k, hk⟩ := takeWhile_joinNL_replicate hg
  have hws : ('\n' :: joinNL ls).takeWhile isSpaceB = List.replicate (k + 1) '\n' := by
    rw [List.takeWhile_cons]
    simp only [show isSpaceB '\n' = true from rfl, if_pos]
    rw [hk, List.replicate_succ]
  have hmem : '\n' ∈ ('\n' :: joinNL ls).takeWhile isSpaceB := by
    rw [hws]; simp [List.replicate_succ]
  rw [collapseNL_cons_nl_match hmem, hws, afterLastNL_replicate, List.nil_append,
    List.length_replicate]
  have hdrop : ('\n' :: joinNL ls).drop (k + 1) = (joinNL ls).drop k := by
    simp [List.drop_succ_cons]
  rw [hdrop]
  cases k with
  | zero =>
    have hnw : '\n' ∉ (joinNL ls).takeWhile isSpaceB := by
      rw [hk]; simp
    rw [collapseNL_cons_nl_nomatch hnw, List.drop_zero]
  | succ k =>
    have hmem' : '\n' ∈ (joinNL ls).takeWhile isSpaceB := by
      rw [hk]; simp [List.replicate_succ]
    rw [collapseNL_cons_nl_match hmem', hk, afterLastNL_replicate, List.nil_append,
      List.length_replicate]

/-- The effect of the newline-collapsing regex on a newline followed by
stripped lines: empty lines disappear, up to a possible trailing newline. -/
theorem collapseNL_nl_joinNL {ls : List (List Char)} (hg : GoodLines ls) :
    ∃ t, collapseNL ('\n' :: joinNL ls)
        = '\n' :: (joinNL (ls.filter (fun l => decide (l ≠ []))) ++ t)
      ∧ (t = [] ∨ (t = ['\n'] ∧ ls.filter (fun l => decide (l ≠ [])) ≠ []))
      ∧ (ls.filter (fun l => decide (l ≠ [])) = [] → t = []) := by
  induction ls with
  | nil =>
    refine ⟨[], ?_, Or.inl rfl, fun _ => rfl⟩
    have hnw : '\n' ∉ ([] : List Char).takeWhile isSpaceB := by simp
    rw [show joinNL [] = [] from rfl, collapseNL_cons_nl_nomatch hnw]
    rfl
  | cons l rest ih =>
    have hl := hg l (by simp)
    have hrest : GoodLines rest := fun x hx => hg x (List.mem_cons_of_mem l hx)
    cases l with
    | nil =>
      cases rest with
      | nil =>
        refine ⟨[], ?_, Or.inl rfl, fun _ => rfl⟩
        have hnw : '\n' ∉ ([] : List Char).takeWhile isSpaceB := by simp
        rw [show joinNL [[]] = [] from rfl, collapseNL_cons_nl_nomatch hnw]
        rfl
      | cons a as =>
        rw [joinNL_cons_of_ne (by simp), List.nil_append]
        rw [collapseNL_nl_nl hrest]
        obtain ⟨t, ht, hside, hside2⟩ := ih hrest
        exact ⟨t, by simpa using ht, by simpa using hside, by simpa using hside2⟩
    | cons c cl =>
      have hc : isSpaceB c = false := head_of_trimmed hl.1 rfl
      have hjoin : joinNL ((c :: cl) :: rest)
          = (c :: cl) ++ (if rest = [] then [] else '\n' :: joinNL rest) := by
        cases rest with
        | nil => simp [joinNL]
        | cons a as => rw [joinNL_cons_of_ne (by simp), if_neg (by simp)]
      have hnw : '\n' ∉ ((c :: cl) ++ (if rest = [] then [] else '\n' :: joinNL rest)).takeWhile isSpaceB := by
        rw [List.cons_append, List.takeWhile_cons, hc]
        simp
      have hfc : List.filter (fun l => decide (l ≠ [])) ((c :: cl) :: rest)
          = (c :: cl) :: List.filter (fun l => decide (l ≠ [])) rest := by
        simp
      rw [hjoin, collapseNL_cons_nl_nomatch hnw,
        collapseNL_append_nonl _ hl.2, hfc]
      cases rest with
      | nil =>
        refine ⟨[], ?_, Or.inl rfl, fun _ => rfl⟩
        simp [joinNL, show collapseNL [] = [] from rfl]
      | cons a as =>
        simp only [if_neg (show ¬ (a :: as = []) by simp)]
        obtain ⟨t, ht, hside, hside2⟩ := ih hrest
        rw [ht]
        by_cases hF : (a :: as).filter (fun l => decide (l ≠ [])) = []
        · have ht0 : t = [] := hside2 hF
          subst ht0
          refine ⟨['\n'], ?_, Or.inr ⟨rfl, by simp⟩, fun hcon => absurd hcon (by simp)⟩
          rw [hF]
          simp [joinNL]
        · refine ⟨t, ?_, ?_, fun hcon => absurd hcon (by simp)⟩
          · rw [joinNL_cons_of_ne hF]
            simp
          · rcases hside with hside | hside
            · exact Or.inl hside
            · exact Or.inr ⟨hside.1, by simp⟩

theorem joinNL_ne_nil {F : List (List Char)} (h : ∀ l ∈ F, l ≠ []) (hne : F ≠ []) :
    joinNL F ≠ [] := by
  cases F with
  | nil => exact absurd rfl hne
  | cons x rest =>
    cases rest with
    | nil => exact h x (by simp)
    | cons a as =>
      rw [joinNL_cons_of_ne (by simp)]
      rcases hx : x with _ | ⟨c, cl⟩
      · exact absurd hx (h x (by simp))
      · simp

theorem joinNL_head_nonspace {F : List (List Char)}
    (h : ∀ l ∈ F, pyStrip l = l ∧ l ≠ []) {c : Char}
    (hc : (joinNL F).head? = some c) : isSpaceB c = false := by
  cases F with
  | nil => simp [joinNL] at hc
  | cons x rest =>
    have hx := h x (by simp)
    rcases hxe : x with _ | ⟨d, dl⟩
    · exact absurd hxe hx.2
    · subst hxe
      have : (joinNL ((d :: dl) :: rest)).head? = some d := by
        cases rest with
        | nil => rfl
        | cons a as => rw [joinNL_cons_of_ne (by simp)]; rfl
      rw [this] at hc
      have hd : c = d := by simpa using hc.symm
      subst hd
      exact head_of_trimmed hx.1 rfl

theorem joinNL_getLast_nonspace {F : List (List Char)}
    (h : ∀ l ∈ F, pyStrip l = l ∧ l ≠ []) {c : Char}
    (hc : (joinNL F).getLast? = some c) : isSpaceB c = false := by
  induction F with
  | nil => simp [joinNL] at hc
  | cons x rest ih =>
    have hx := h x (by simp)
    have hrest : ∀ l ∈ rest, pyStrip l = l ∧ l ≠ [] :=
      fun l hl => h l (List.mem_cons_of_mem x hl)
    cases rest with
    | nil => exact getLast_of_trimmed hx.1 hc
    | cons a as =>
      rw [joinNL_cons_of_ne (by simp)] at hc
      have hJne : joinNL (a :: as) ≠ [] :=
        joinNL_ne_nil (fun l hl => (hrest l hl).2) (by simp)
      rw [List.getLast?_append_of_ne_nil _ (by simp)] at hc
      rw [show ('\n' :: joinNL (a :: as)) = ['\n'] ++ joinNL (a :: as) from rfl,
        List.getLast?_append_of_ne_nil _ hJne] at hc
      exact ih hrest hc

/-- The behaviour of `clean_content` after comment removal: per-line
stripping followed by the newline-collapsing regex and the final strip
leaves exactly the non-empty stripped lines, joined by single newlines. -/
theorem pyStrip_collapseNL_joinNL {ls : List (List Char)} (hg : GoodLines ls)
    (hne : ls ≠ []) :
    pyStrip (collapseNL (joinNL ls)) = joinNL (ls.filter (fun l => decide (l ≠ []))) := by
  cases ls with
  | nil => exact absurd rfl hne
  | cons m ms =>
    have hm := hg m (by simp)
    have hms : GoodLines ms := fun x hx => hg x (List.mem_cons_of_mem m hx)
    have hgoodF : ∀ l ∈ ms.filter (fun l => decide (l ≠ [])), pyStrip l = l ∧ l ≠ [] := by
      intro l hl
      have hmem := List.mem_of_mem_filter hl
      have hprop := List.of_mem_filter hl
      exact ⟨(hms l hmem).1, by simpa using hprop⟩
    cases ms with
    | nil =>
      rcases hme : m with _ | ⟨c, cl⟩
      · rfl
      · rw [show joinNL [c :: cl] = c :: cl from rfl,
          collapseNL_of_nonl (hme ▸ hm.2),
          show List.filter (fun l => decide (l ≠ [])) [c :: cl] = [c :: cl] from by simp,
          show joinNL [c :: cl] = c :: cl from rfl]
        exact hme ▸ hm.1
    | cons a as =>
      rw [joinNL_cons_of_ne (by simp)]
      obtain ⟨t, ht, hside, hside2⟩ := collapseNL_nl_joinNL hms
      rcases hme : m with _ | ⟨c, cl⟩
      · rw [List.nil_append, ht]
        have hfilter : List.filter (fun l => decide (l ≠ [])) ([] :: a :: as)
            = List.filter (fun l => decide (l ≠ [])) (a :: as) := by simp
        rw [hfilter]
        by_cases hF : List.filter (fun l => decide (l ≠ [])) (a :: as) = []
        · rw [hF, hside2 hF]
          rfl
        · have hJne : joinNL (List.filter (fun l => decide (l ≠ [])) (a :: as)) ≠ [] :=
            joinNL_ne_nil (fun l hl => (hgoodF l hl).2) hF
          rw [pyStrip, List.dropWhile_cons_of_pos (by rfl)]
          have hhead : ∀ d, ((joinNL (List.filter (fun l => decide (l ≠ [])) (a :: as)) ++ t)).head? = some d → isSpaceB d = false := by
            intro d hd
            rw [List.head?_append_of_ne_nil _ hJne] at hd
            exact joinNL_head_nonspace hgoodF hd
          rw [dropWhile_eq_self_of_head hhead]
          rcases hside with ht0 | ⟨ht1, _⟩
          · rw [ht0, List.append_nil]
            exact stripRight_eq_self_of_last (fun d hd => joinNL_getLast_nonspace hgoodF hd)
          · rw [ht1, show (joinNL (List.filter (fun l => decide (l ≠ [])) (a :: as)) ++ ['\n'])
                = joinNL (List.filter (fun l => decide (l ≠ [])) (a :: as)) ++ ['\n'] from rfl,
              stripRight_append_ws _ (by rfl)]
            exact stripRight_eq_self_of_last (fun d hd => joinNL_getLast_nonspace hgoodF hd)
      · have hnlm : '\n' ∉ (c :: cl) := hme ▸ hm.2
        have htrm : pyStrip (c :: cl) = c :: cl := hme ▸ hm.1
        rw [collapseNL_append_nonl _ hnlm, ht]
        have hfilter : List.filter (fun l => decide (l ≠ [])) ((c :: cl) :: a :: as)
            = (c :: cl) :: List.filter (fun l => decide (l ≠ [])) (a :: as) := by simp
        rw [hfilter]
        have hc : isSpaceB c = false := head_of_trimmed htrm rfl
        have hdw : ((c :: cl) ++ '\n' :: (joinNL (List.filter (fun l => decide (l ≠ [])) (a :: as)) ++ t)).dropWhile isSpaceB
            = (c :: cl) ++ '\n' :: (joinNL (List.filter (fun l => decide (l ≠ [])) (a :: as)) ++ t) := by
          rw [List.cons_append, List.dropWhile_cons_of_neg (by simp [hc])]
        rw [pyStrip, hdw]
        by_cases hF : List.filter (fun l => decide (l ≠ [])) (a :: as) = []
        · rw [hF, hside2 hF]
          rw [show joinNL ((c :: cl) :: []) = c :: cl from rfl]
          rw [show (joinNL [] ++ [] : List Char) = [] from rfl]
          rw [show ((c :: cl) ++ '\n' :: [] : List Char) = (c :: cl) ++ ['\n'] from rfl]
          rw [stripRight_append_ws _ (by rfl)]
          exact stripRight_eq_self_of_last (fun d hd => getLast_of_trimmed htrm hd)
        · have hJne : joinNL (List.filter (fun l => decide (l ≠ [])) (a :: as)) ≠ [] :=
            joinNL_ne_nil (fun l hl => (hgoodF l hl).2) hF
          rw [joinNL_cons_of_ne hF]
          have hlastJ : ∀ d, ((c :: cl) ++ '\n' :: joinNL (List.filter (fun l => decide (l ≠ [])) (a :: as))).getLast? = some d → isSpaceB d = false := by
            intro d hd
            rw [List.getLast?_append_of_ne_nil _ (by simp)] at hd
            rw [show ('\n' :: joinNL (List.filter (fun l => decide (l ≠ [])) (a :: as)))
                = ['\n'] ++ joinNL (List.filter (fun l => decide (l ≠ [])) (a :: as)) from rfl,
              List.getLast?_append_of_ne_nil _ hJne] at hd
            exact joinNL_getLast_nonspace hgoodF hd
          rcases hside with ht0 | ⟨ht1, _⟩
          · rw [ht0, List.append_nil]
            exact stripRight_eq_self_of_last hlastJ
          · rw [ht1]
            rw [show ((c :: cl) ++ '\n' :: (joinNL (List.filter (fun l => decide (l ≠ [])) (a :: as)) ++ ['\n']))
                = ((c :: cl) ++ '\n' :: joinNL (List.filter (fun l => decide (l ≠ [])) (a :: as))) ++ ['\n'] from by simp,
              stripRight_append_ws _ (by rfl)]
            exact stripRight_eq_self_of_last hlastJ

/-- `clean_content` keeps exactly the non-empty stripped lines of the
comment-stripped input, joined by single newlines. -/
theorem clean_content_eq (s : List Char) :
    clean_content s
      = joinNL (((splitNL (removeComments s)).map pyStrip).filter (fun l => decide (l ≠ []))) := by
  have hg : GoodLines ((splitNL (removeComments s)).map pyStrip) := by
    intro l hl
    obtain ⟨p, hp, hpl⟩ := List.mem_map.mp hl
    refine ⟨hpl ▸ pyStrip_idem p, ?_⟩
    intro hmem
    exact not_mem_of_mem_splitOnC hp (mem_pyStrip (hpl ▸ hmem))
  have hne : (splitNL (removeComments s)).map pyStrip ≠ [] := by
    intro hcon
    exact splitOnC_ne_nil '\n' (removeComments s) (List.map_eq_nil_iff.mp hcon)
  exact pyStrip_collapseNL_joinNL hg hne

/-! ### No blank line survives cleaning -/

theorem chain'_of_no_nl {l : List Char} (h : '\n' ∉ l) :
    List.Chain' (fun a b => a = '\n' → b ≠ '\n') l := by
  induction l with
  | nil => simp
  | cons c cs ih =>
    have hc : c ≠ '\n' := fun e => h (by simp [e])
    have hcs : '\n' ∉ cs := fun m => h (List.mem_cons_of_mem _ m)
    rw [List.chain'_cons']
    exact ⟨fun b _ hc' => absurd hc' hc, ih hcs⟩

theorem joinNL_head_cons {x : List Char} {rest : List (List Char)} (hx : x ≠ []) :
    (joinNL (x :: rest)).head? = x.head? := by
  cases rest with
  | nil => rfl
  | cons a as =>
    rw [joinNL_cons_of_ne (by simp)]
    cases x with
    | nil => exact absurd rfl hx
    | cons c cl => rfl

theorem chain'_no_nlnl {F : List (List Char)} (h : ∀ l ∈ F, l ≠ [] ∧ '\n' ∉ l) :
    List.Chain' (fun a b => a = '\n' → b ≠ '\n') (joinNL F) := by
  induction F with
  | nil => simp [joinNL]
  | cons x rest ih =>
    have hx := h x (by simp)
    have hrest : ∀ l ∈ rest, l ≠ [] ∧ '\n' ∉ l :=
      fun l hl => h l (List.mem_cons_of_mem x hl)
    cases rest with
    | nil => exact chain'_of_no_nl hx.2
    | cons a as =>
      rw [joinNL_cons_of_ne (by simp)]
      rw [List.chain'_append]
      refine ⟨chain'_of_no_nl hx.2, ?_, ?_⟩
      · rw [List.chain'_cons']
        refine ⟨?_, ih hrest⟩
        intro b hb
        rw [joinNL_head_cons (h a (by simp)).1] at hb
        intro _ hbnl
        have hmem : b ∈ a := List.mem_of_mem_head? hb
        exact (h a (by simp)).2 (hbnl ▸ hmem)
      · intro p hp q hq
        have hpx : p ∈ x := List.mem_of_mem_getLast? hp
        intro hpnl
        exact absurd (hpnl ▸ hpx) hx.2

theorem no_double_nl_joinNL {F : List (List Char)}
    (h : ∀ l ∈ F, l ≠ [] ∧ '\n' ∉ l) : ¬ (['\n', '\n'] <:+: joinNL F) := by
  intro hinf
  have hch := chain'_no_nlnl h
  obtain ⟨s, t, hst⟩ := hinf
  rw [← hst, List.append_assoc] at hch
  have h2 := (List.chain'_append.mp hch).2.1
  rw [List.cons_append, List.cons_append, List.chain'_cons'] at h2
  have := h2.1 '\n' (by simp)
  exact this rfl rfl

theorem goodLines_stripped (s : List Char) :
    GoodLines ((splitNL (removeComments s)).map pyStrip) := by
  intro l hl
  obtain ⟨p, hp, hpl⟩ := List.mem_map.mp hl
  refine ⟨hpl ▸ pyStrip_idem p, ?_⟩
  intro hmem
  exact not_mem_of_mem_splitOnC hp (mem_pyStrip (hpl ▸ hmem))

theorem map_pyStrip_eq_self {F : List (List Char)} (h : ∀ l ∈ F, pyStrip l = l) :
    F.map pyStrip = F := by
  induction F with
  | nil => rfl
  | cons x rest ih =>
    rw [List.map_cons, h x (by simp), ih (fun l hl => h l (List.mem_cons_of_mem x hl))]

/-! ### Claim C2 -/

/-- Claim C2, as stated, is false: the cleaner does not leave exactly one
blank line where a run of two or more blank lines stood. On `"a\n\n\nb"` the
claim demands the output `"a\n\nb"`; the code produces `"a\nb"`, with no
blank line at all. -/
theorem c2_counterexample :
    clean_content (str "a\n\n\nb") = str "a\nb"
      ∧ ¬ clean_content (str "a\n\n\nb") = str "a\n\nb" := by
  exact ⟨by decide, by decide⟩

/-- Claim C2 (amended): the cleaner removes blank-line runs entirely — for
every input, the cleaned result contains no two consecutive newlines, so no
blank line (and in particular no double-blank-line gap) survives between the
remaining non-blank lines; a run of blank lines collapses to a single
newline boundary, as `"a\n\n\nb"` becoming `"a\nb"` shows. -/
theorem c2_no_blank_line_survives :
    (∀ s : List Char, ¬ (['\n', '\n'] <:+: clean_content s))
      ∧ clean_content (str "a\n\n\nb") = str "a\nb" := by
  constructor
  · intro s
    rw [clean_content_eq]
    apply no_double_nl_joinNL
    intro l hl
    have hmem := List.mem_of_mem_filter hl
    have hprop := List.of_mem_filter hl
    exact ⟨by simpa using hprop, (goodLines_stripped s l hmem).2⟩
  · decide

/-! ### Claim C9 -/

/-- Claim C9, as stated, is false: cleaning is not idempotent on every
input. `re.sub` does not rescan replaced regions, so on
`"<!<!-- c -->-- y -->"` one comment-removal pass leaves `"<!-- y -->"`, a
complete HTML comment; cleaning once yields `"<!-- y -->"` and cleaning
twice yields the empty string. -/
theorem c9_counterexample :
    clean_content (str "<!<!-- c -->-- y -->") = str "<!-- y -->"
      ∧ clean_content (clean_content (str "<!<!-- c -->-- y -->"))
          ≠ clean_content (str "<!<!-- c -->-- y -->") := by
  exact ⟨by decide, by decide⟩

/-- Claim C9 (amended): cleaning is idempotent on every input whose cleaned
content the comment-removal pass leaves unchanged — in particular on every
input whose cleaned content contains no complete HTML comment. The only
source of non-idempotence is a comment opener-closer pair surviving the
single left-to-right removal pass. -/
theorem c9_clean_idempotent_of_comment_fixed (x : List Char)
    (h : removeComments (clean_content x) = clean_content x) :
    clean_content (clean_content x) = clean_content x := by
  have hcx := clean_content_eq x
  have hgood := goodLines_stripped x
  have hF : ∀ l ∈ ((splitNL (removeComments x)).map pyStrip).filter
      (fun l => decide (l ≠ [])), pyStrip l = l ∧ '\n' ∉ l ∧ l ≠ [] := by
    intro l hl
    have hmem := List.mem_of_mem_filter hl
    have hprop := List.of_mem_filter hl
    exact ⟨(hgood l hmem).1, (hgood l hmem).2, by simpa using hprop⟩
  by_cases hFe : ((splitNL (removeComments x)).map pyStrip).filter
      (fun l => decide (l ≠ [])) = []
  · rw [hcx, hFe]
    decide
  · rw [hcx] at h ⊢
    rw [clean_content_eq, h,
      splitNL_joinNL (fun l hl => (hF l hl).2.1) hFe,
      map_pyStrip_eq_self (fun l hl => (hF l hl).1),
      List.filter_eq_self.mpr (fun l hl => by simpa using (hF l hl).2.2)]

/-- Witness for the amended Claim C9 at the concrete input `"a\n\nb"`. -/
theorem c9_witness :
    removeComments (clean_content (str "a\n\nb")) = clean_content (str "a\n\nb")
      ∧ clean_content (clean_content (str "a\n\nb")) = clean_content (str "a\n\nb") :=
  ⟨by decide, c9_clean_idempotent_of_comment_fixed _ (by decide)⟩

/-! ### Claim C6 -/

/-- Claim C6: the opt-out detector returns true exactly when the cleaned
content, uppercased, equals the literal `NONE` as the entire content; the
listed inputs behave as the claim states. -/
theorem c6_opt_out_exact_match :
    (∀ c : List Char, is_opt_out c = true ↔ toUpperL (clean_content c) = str "NONE")
      ∧ is_opt_out (str "NONE") = true
      ∧ is_opt_out (str "none") = true
      ∧ is_opt_out (str "NoNe") = true
      ∧ is_opt_out (str "  NONE  ") = true
      ∧ is_opt_out (str "<!-- x --> NONE") = true
      ∧ is_opt_out (str "See NONE below") = false
      ∧ is_opt_out (str "### Fixed\n- x") = false := by
  refine ⟨?_, by decide, by decide, by decide, by decide, by decide, by decide, by decide⟩
  intro c
  rw [is_opt_out]
  exact beq_iff_eq

/-! ### Claim C10 -/

/-- Claim C10: the heading regex ends in `\s+`, so a PR body that ends
exactly with `## Release Notes` (no trailing whitespace) yields no section
— the extractor returns absence and the validator reports not-found — while
the same body with a trailing newline extracts an (empty) section. -/
theorem c10_heading_requires_trailing_whitespace :
    extract_release_notes_section (str "Some PR description.\n\n## Release Notes") = none
      ∧ validate_release_notes (str "Some PR description.\n\n## Release Notes")
          = (false, str "Release Notes section not found in PR description", none)
      ∧ extract_release_notes_section (str "## Release Notes") = none
      ∧ validate_release_notes (str "## Release Notes")
          = (false, str "Release Notes section not found in PR description", none)
      ∧ extract_release_notes_section (str "Some PR description.\n\n## Release Notes\n")
          = some [] := by
  exact ⟨by decide, by decide, by decide, by decide, by decide⟩

/-! ### Claim C1 -/

/-- Claim C1, as stated, is false: on a changelog with `## [Unreleased]`
followed by `## [v1.0.0]`, inserting v0.9.0 (lower than every existing
version) does not place the new section after the v1.0.0 section at the
document end; the headers of the result read v0.9.0 before v1.0.0. -/
theorem c1_counterexample :
    update_changelog
        (str "# Changelog\n\n## [Unreleased]\n\n## [v1.0.0] - 2024-01-01\n\n- old entry\n")
        (str "v0.9.0") (str "2025-01-15") (str "- new entry\n")
      = some (str "# Changelog\n\n## [Unreleased]\n\n\n## [v0.9.0] - 2025-01-15\n\n- new entry\n\n## [v1.0.0] - 2024-01-01\n\n- old entry\n")
      ∧ (findVersionHeaders
          (str "# Changelog\n\n## [Unreleased]\n\n\n## [v0.9.0] - 2025-01-15\n\n- new entry\n\n## [v1.0.0] - 2024-01-01\n\n- old entry\n")).map
            (fun m => m.version)
        ≠ [str "v1.0.0", str "v0.9.0"] := by
  exact ⟨by decide, by decide⟩

/-- Claim C1 (amended): when the new version is strictly lower than every
existing version, the scan finds no insertion anchor and the new section is
inserted immediately after the `## [Unreleased]` heading — above the
v1.0.0 section, not at the document end: the version headers of the result
read v0.9.0 first, then v1.0.0. -/
theorem c1_lower_version_inserted_after_unreleased :
    update_changelog
        (str "# Changelog\n\n## [Unreleased]\n\n## [v1.0.0] - 2024-01-01\n\n- old entry\n")
        (str "v0.9.0") (str "2025-01-15") (str "- new entry\n")
      = some (str "# Changelog\n\n## [Unreleased]\n\n\n## [v0.9.0] - 2025-01-15\n\n- new entry\n\n## [v1.0.0] - 2024-01-01\n\n- old entry\n")
      ∧ (findVersionHeaders
          (str "# Changelog\n\n## [Unreleased]\n\n\n## [v0.9.0] - 2025-01-15\n\n- new entry\n\n## [v1.0.0] - 2024-01-01\n\n- old entry\n")).map
            (fun m => m.version)
        = [str "v0.9.0", str "v1.0.0"]
      ∧ findUnreleasedEnd
          (str "# Changelog\n\n## [Unreleased]\n\n## [v1.0.0] - 2024-01-01\n\n- old entry\n")
        = some 30
      ∧ (str "# Changelog\n\n## [Unreleased]\n\n\n## [v0.9.0] - 2025-01-15\n\n- new entry\n\n## [v1.0.0] - 2024-01-01\n\n- old entry\n").take 30
        = (str "# Changelog\n\n## [Unreleased]\n\n## [v1.0.0] - 2024-01-01\n\n- old entry\n").take 30 := by
  exact ⟨by decide, by decide, by decide, by decide⟩

/-! ### Claim C3 -/

theorem parseStep_none_of_no_valid {m : Mapping} {l : List Char}
    (h : ∀ cat ∈ VALID_CATEGORIES, categoryHeading (pyStrip l) ≠ some cat) :
    parseStep (m, none) l = (m, none) := by
  rw [parseStep]
  by_cases he : pyStrip l = []
  · simp [he]
  · simp only [if_neg he]
    rcases hch : categoryHeading (pyStrip l) with _ | cat
    · by_cases hb : (pyStrip l).head? = some '-' ∨ (pyStrip l).head? = some '*'
      · simp [hb]
      · simp [hb]
    · have hinv : cat ∉ VALID_CATEGORIES := fun hmem => h cat hmem hch
      simp [hinv]

/-- Claim C3: a level-3 heading whose text is not a valid category resets
the current category to none; every line between an invalid heading and the
next valid heading that is not itself a valid heading (in particular every
bullet there) leaves the mapping untouched, contributing zero entries
anywhere; and the Fixed → InvalidName → Added sequence isolates entries to
their own categories with no leakage. -/
theorem c3_invalid_heading_resets :
    (∀ (m : Mapping) (cur : Option (List Char)) (line cat : List Char),
        categoryHeading (pyStrip line) = some cat → cat ∉ VALID_CATEGORIES →
        parseStep (m, cur) line = (m, none))
      ∧ (∀ (m : Mapping) (B rest : List (List Char)),
          (∀ l ∈ B, ∀ cat ∈ VALID_CATEGORIES, categoryHeading (pyStrip l) ≠ some cat) →
          List.foldl parseStep (m, none) (B ++ rest)
            = List.foldl parseStep (m, none) rest)
      ∧ parse_release_notes (str "### Fixed\n- a\n### InvalidName\n- x\n- y\n### Added\n- b")
          = [(str "Fixed", [str "a"]), (str "Added", [str "b"])] := by
  refine ⟨?_, ?_, by decide⟩
  · intro m cur line cat hch hinv
    rw [parseStep]
    have he : pyStrip line ≠ [] := by
      intro hcon
      rw [hcon] at hch
      simp [categoryHeading, str] at hch
    simp only [if_neg he, hch]
    simp [hinv]
  · intro m B rest hB
    induction B with
    | nil => rfl
    | cons l B ih =>
      rw [List.cons_append, List.foldl_cons,
        parseStep_none_of_no_valid (hB l (by simp))]
      exact ih (fun l' hl' => hB l' (List.mem_cons_of_mem l hl'))

/-- Witness for Claim C3 at concrete inputs: discarded bullets after an
invalid heading, and the reset step itself. -/
theorem c3_witness :
    parseStep ([(str "Fixed", [str "a"])], some (str "Fixed")) (str "### InvalidName")
        = ([(str "Fixed", [str "a"])], none)
      ∧ List.foldl parseStep ([(str "Fixed", [str "a"])], none)
            ([str "- x", str "- y"] ++ [str "### Added", str "- b"])
          = List.foldl parseStep ([(str "Fixed", [str "a"])], none)
            [str "### Added", str "- b"] :=
  ⟨c3_invalid_heading_resets.1 _ _ _ (str "InvalidName") (by decide) (by decide),
   c3_invalid_heading_resets.2.1 _ _ _ (by decide)⟩

/-! ### Claim C8 -/

/-- Claim C8: whenever the parsed category mapping of the extracted section
is non-empty but contains at least one category with zero entries, the
validator returns invalid with no mapping and the message that names every
empty category, comma-joined, stating they have no entries. -/
theorem c8_validator_names_empty_categories
    (pr_body rn : List Char)
    (hrn : extract_release_notes_section pr_body = some rn)
    (hopt : is_opt_out rn = false)
    (hne : parse_release_notes rn ≠ [])
    (hemp : ((parse_release_notes rn).filter (fun p => p.2 = [])).map (fun p => p.1) ≠ []) :
    validate_release_notes pr_body
      = (false,
          str "Categories "
            ++ joinCommaSpace
              (((parse_release_notes rn).filter (fun p => p.2 = [])).map (fun p => p.1))
            ++ str " have no entries",
          none) := by
  rw [validate_release_notes, hrn]
  simp only [hopt, Bool.false_eq_true, if_false, if_neg hne, if_pos hemp]

/-- Witness for Claim C8 at a concrete PR body with a populated `Added`
category and an empty `Fixed` category. -/
theorem c8_witness :
    validate_release_notes (str "## Release Notes\n\n### Added\n- x\n### Fixed\n")
      = (false,
          str "Categories "
            ++ joinCommaSpace
              (((parse_release_notes (str "### Added\n- x\n### Fixed")).filter
                  (fun p => p.2 = [])).map (fun p => p.1))
            ++ str " have no entries",
          none) :=
  c8_validator_names_empty_categories _ _ (by decide) (by decide) (by decide) (by decide)

/-! ### Claim C4 -/

theorem containsSub_iff {l p : List Char} : containsSub l p = true ↔ p <:+: l := by
  induction l with
  | nil =>
    rw [containsSub]
    simp only [List.isEmpty_iff]
    constructor
    · intro h; rw [h]
    · intro h; exact List.infix_nil.mp h
  | cons c cs ih =>
    rw [containsSub, Bool.or_eq_true, ih, List.isPrefixOf_iff_prefix]
    constructor
    · rintro (h | h)
      · exact h.isInfix
      · exact List.infix_cons h
    · rintro ⟨s, t, hst⟩
      cases s with
      | nil =>
        left
        exact ⟨t, by simpa using hst⟩
      | cons d ds =>
        right
        have htl : ds ++ p ++ t = cs := by
          have := congrArg List.tail hst
          simpa using this
        exact ⟨ds, t, htl⟩

theorem prToken_infix_attribution (pr : PR) : prToken pr <:+: attribution pr := by
  refine ⟨str " [",
    str "](" ++ pr.url ++ str ") [" ++ pr.author ++ str "](" ++ pr.author_url ++ str ")", ?_⟩
  simp [attribution, List.append_assoc]

/-- Claim C4: the attribution suffix is appended only when the entry text
contains neither the `#<pr-number>` token nor the PR URL; formatting is
idempotent, so aggregating already-attributed text never double-appends;
and two PRs with different numbers contributing the identical raw entry
yield two distinct formatted lines that are both retained, because
deduplication compares only the final formatted string. -/
theorem c4_attribution_idempotent_and_dedup_granularity :
    (∀ (pr : PR) (e : List Char),
        containsSub e (prToken pr) = true ∨ containsSub e pr.url = true →
        formatEntry pr e = e)
      ∧ (∀ (pr : PR) (e : List Char),
          containsSub e (prToken pr) = false ∧ containsSub e pr.url = false →
          formatEntry pr e = e ++ attribution pr)
      ∧ (∀ (pr : PR) (e : List Char),
          formatEntry pr (formatEntry pr e) = formatEntry pr e)
      ∧ format_changelog_from_prs
          [⟨1, str "https://e/1", str "alice", str "https://e/alice",
             str "## Release Notes\n### Fixed\n- Fixed bug A\n"⟩,
           ⟨2, str "https://e/2", str "bob", str "https://e/bob",
             str "## Release Notes\n### Fixed\n- Fixed bug A\n"⟩]
        = str "### Fixed\n- Fixed bug A [#1](https://e/1) [alice](https://e/alice)\n- Fixed bug A [#2](https://e/2) [bob](https://e/bob)" := by
  have happ : ∀ (pr : PR) (e : List Char),
      containsSub e (prToken pr) = false ∧ containsSub e pr.url = false →
      formatEntry pr e = e ++ attribution pr := by
    intro pr e h
    rw [formatEntry, if_pos h]
  have hkeep : ∀ (pr : PR) (e : List Char),
      containsSub e (prToken pr) = true ∨ containsSub e pr.url = true →
      formatEntry pr e = e := by
    intro pr e h
    rw [formatEntry]
    rcases h with h | h
    · rw [if_neg]
      rintro ⟨h1, _⟩
      rw [h] at h1
      exact Bool.true_eq_false.mp h1
    · rw [if_neg]
      rintro ⟨_, h2⟩
      rw [h] at h2
      exact Bool.true_eq_false.mp h2
  refine ⟨hkeep, happ, ?_, by decide⟩
  intro pr e
  by_cases hc : containsSub e (prToken pr) = false ∧ containsSub e pr.url = false
  · rw [happ pr e hc]
    apply hkeep
    left
    rw [containsSub_iff]
    exact (prToken_infix_attribution pr).trans (List.suffix_append e (attribution pr)).isInfix
  · have h' : containsSub e (prToken pr) = true ∨ containsSub e pr.url = true := by
      rcases Bool.eq_false_or_eq_true (containsSub e (prToken pr)) with h | h
      · exact Or.inl h
      · rcases Bool.eq_false_or_eq_true (containsSub e pr.url) with h2 | h2
        · exact Or.inr h2
        · exact absurd ⟨h, h2⟩ hc
    rw [hkeep pr e h', hkeep pr e h']

/-- Witness for Claim C4 at a concrete already-attributed entry. -/
theorem c4_witness :
    (containsSub (str "Fixed bug A [#7](https://e/7)")
        (prToken ⟨7, str "https://e/7", str "ann", str "https://e/ann", str ""⟩) = true
      ∨ containsSub (str "Fixed bug A [#7](https://e/7)")
          (PR.url ⟨7, str "https://e/7", str "ann", str "https://e/ann", str ""⟩) = true)
      ∧ formatEntry ⟨7, str "https://e/7", str "ann", str "https://e/ann", str ""⟩
            (str "Fixed bug A [#7](https://e/7)")
          = str "Fixed bug A [#7](https://e/7)" :=
  ⟨Or.inl (by decide),
   c4_attribution_idempotent_and_dedup_granularity.1 _ _ (Or.inl (by decide))⟩

/-! ### Claim C5 -/

theorem findInsertPos_spec :
    ∀ (ms : List VMatch) (ss : Nat) (nv : List Nat) (p : Nat),
      findInsertPos ms ss nv = some p →
      ∃ pre m post, ms = pre ++ m :: post ∧ p = m.start ∧ ss ≤ m.start
        ∧ (∃ ev, parseVersion (lstripV m.version) = some ev ∧ versionLt ev nv = true)
        ∧ ∀ m' ∈ pre, m'.start < ss ∨ parseVersion (lstripV m'.version) = none
            ∨ ∃ ev', parseVersion (lstripV m'.version) = some ev' ∧ versionLt ev' nv = false := by
  intro ms
  induction ms with
  | nil =>
    intro ss nv p h
    simp [findInsertPos] at h
  | cons m rest ih =>
    intro ss nv p h
    rw [findInsertPos] at h
    by_cases h1 : m.start < ss
    · rw [if_pos h1] at h
      obtain ⟨pre, mm, post, hsplit, hp, hss, hev, hpre⟩ := ih ss nv p h
      refine ⟨m :: pre, mm, post, by rw [List.cons_append, hsplit], hp, hss, hev, ?_⟩
      intro m' hm'
      rcases List.mem_cons.mp hm' with hm' | hm'
      · exact Or.inl (hm' ▸ h1)
      · exact hpre m' hm'
    · rw [if_neg h1] at h
      rcases h2 : parseVersion (lstripV m.version) with _ | ev
      · simp only [h2] at h
        obtain ⟨pre, mm, post, hsplit, hp, hss, hev, hpre⟩ := ih ss nv p h
        refine ⟨m :: pre, mm, post, by rw [List.cons_append, hsplit], hp, hss, hev, ?_⟩
        intro m' hm'
        rcases List.mem_cons.mp hm' with hm' | hm'
        · exact Or.inr (Or.inl (hm' ▸ h2))
        · exact hpre m' hm'
      · simp only [h2] at h
        by_cases h3 : versionLt ev nv = true
        · rw [if_pos h3] at h
          refine ⟨[], m, rest, rfl, (Option.some.inj h).symm, Nat.le_of_not_lt h1,
            ⟨ev, h2, h3⟩, by simp⟩
        · rw [if_neg h3] at h
          obtain ⟨pre, mm, post, hsplit, hp, hss, hev, hpre⟩ := ih ss nv p h
          refine ⟨m :: pre, mm, post, by rw [List.cons_append, hsplit], hp, hss, hev, ?_⟩
          intro m' hm'
          rcases List.mem_cons.mp hm' with hm' | hm'
          · subst hm'
            refine Or.inr (Or.inr ⟨ev, h2, ?_⟩)
            rcases Bool.eq_false_or_eq_true (versionLt ev nv) with hb | hb
            · exact absurd hb h3
            · exact hb
          · exact hpre m' hm'

theorem tryHeaderAt_len_pos {l g : List Char} {len : Nat}
    (h : tryHeaderAt l = some (g, len)) : 1 ≤ len := by
  simp only [tryHeaderAt] at h
  split at h
  · split at h
    · exact absurd h (by simp)
    · split at h
      · split at h
        · have hlen := congrArg Prod.snd (Option.some.inj h)
          simp only [] at hlen
          omega
        · exact absurd h (by simp)
      · exact absurd h (by simp)
  · exact absurd h (by simp)

theorem findVHAux_start_le :
    ∀ (fuel pos : Nat) (l : List Char), ∀ mm ∈ findVHAux fuel pos l, pos ≤ mm.start := by
  intro fuel
  induction fuel with
  | zero =>
    intro pos l mm hmm
    cases l <;> simp [findVHAux] at hmm
  | succ fuel ih =>
    intro pos l mm hmm
    cases l with
    | nil => simp [findVHAux] at hmm
    | cons c cs =>
      rw [findVHAux] at hmm
      rcases hh : tryHeaderAt (c :: cs) with _ | ⟨g, len⟩
      · rw [hh] at hmm
        have := ih (pos + 1) cs mm hmm
        omega
      · rw [hh] at hmm
        rcases List.mem_cons.mp hmm with hmm | hmm
        · rw [hmm]
        · have := ih (pos + len) ((c :: cs).drop len) mm hmm
          omega

theorem findVHAux_chain :
    ∀ (fuel pos : Nat) (l : List Char),
      List.Chain' (fun a b => a.start < b.start) (findVHAux fuel pos l) := by
  intro fuel
  induction fuel with
  | zero =>
    intro pos l
    cases l <;> simp [findVHAux]
  | succ fuel ih =>
    intro pos l
    cases l with
    | nil => simp [findVHAux]
    | cons c cs =>
      rw [findVHAux]
      rcases hh : tryHeaderAt (c :: cs) with _ | ⟨g, len⟩
      · exact ih (pos + 1) cs
      · rw [List.chain'_cons']
        refine ⟨?_, ih (pos + len) ((c :: cs).drop len)⟩
        intro b hb
        have hbmem : b ∈ findVHAux fuel (pos + len) ((c :: cs).drop len) :=
          List.mem_of_mem_head? hb
        have h1 := findVHAux_start_le fuel (pos + len) _ b hbmem
        have h2 := tryHeaderAt_len_pos hh
        simp only []
        omega

/-- Claim C5: when the insertion scan chooses a position, that position is
the start offset of the first version header in document order, at or after
the search boundary, whose parsed version is strictly less than the new
version — every earlier header was skipped because it lies before the
boundary, fails to parse, or is not smaller; the matches are produced in
strictly increasing document order; and unparseable existing headers never
abort the update: whenever the new version parses, the update returns a
result. -/
theorem c5_insertion_anchor_first_smaller :
    (∀ (content : List Char) (nv : List Nat) (p : Nat),
        findInsertPos (findVersionHeaders content) (searchStartOf content) nv = some p →
        ∃ pre m post, findVersionHeaders content = pre ++ m :: post ∧ p = m.start
          ∧ searchStartOf content ≤ m.start
          ∧ (∃ ev, parseVersion (lstripV m.version) = some ev ∧ versionLt ev nv = true)
          ∧ ∀ m' ∈ pre, m'.start < searchStartOf content
              ∨ parseVersion (lstripV m'.version) = none
              ∨ ∃ ev', parseVersion (lstripV m'.version) = some ev' ∧ versionLt ev' nv = false)
      ∧ (∀ content : List Char,
          List.Chain' (fun a b => a.start < b.start) (findVersionHeaders content))
      ∧ (∀ (content version date entriesRaw : List Char) (nv : List Nat),
          parseVersion (lstripV version) = some nv →
          (update_changelog content version date entriesRaw).isSome = true) := by
  refine ⟨?_, ?_, ?_⟩
  · intro content nv p h
    exact findInsertPos_spec _ _ _ _ h
  · intro content
    exact findVHAux_chain _ _ _
  · intro content version date entriesRaw nv h
    rw [update_changelog, h]
    rcases hfi : findInsertPos (findVersionHeaders content) (searchStartOf content) nv with _ | p
    · rcases hun : findUnreleasedEnd content with _ | e
      · simp [hfi, hun]
      · simp only [hfi, hun]
        split <;> simp
    · simp [hfi]

/-- Witness for Claim C5 on a document whose topmost header `[latest]` is
unparseable: the chosen anchor is the later `[v1.0.0]` header, and every
skipped header either fails to parse or is not smaller. -/
theorem c5_witness :
    ∃ pre m post,
      findVersionHeaders
          (str "## [Unreleased]\n\n## [latest] - 2024-01-01\n\n## [v1.0.0] - 2024-01-01\n")
        = pre ++ m :: post
      ∧ 43 = m.start
      ∧ searchStartOf
          (str "## [Unreleased]\n\n## [latest] - 2024-01-01\n\n## [v1.0.0] - 2024-01-01\n")
        ≤ m.start
      ∧ (∃ ev, parseVersion (lstripV m.version) = some ev ∧ versionLt ev [1, 1, 0] = true)
      ∧ ∀ m' ∈ pre, m'.start < searchStartOf
            (str "## [Unreleased]\n\n## [latest] - 2024-01-01\n\n## [v1.0.0] - 2024-01-01\n")
          ∨ parseVersion (lstripV m'.version) = none
          ∨ ∃ ev', parseVersion (lstripV m'.version) = some ev' ∧ versionLt ev' [1, 1, 0] = false :=
  c5_insertion_anchor_first_smaller.1 _ [1, 1, 0] 43 (by decide)

/-! ### Claim C7: rendering machinery -/

/-- A well-formed stored entry: non-empty with no leading or trailing
whitespace (as every entry produced by the parser and the aggregator is). -/
def goodEntryB (e : List Char) : Bool :=
  !e.isEmpty
    && (match e.head? with | some c => !isSpaceB c | none => true)
    && (match e.getLast? with | some c => !isSpaceB c | none => true)

theorem goodEntryB_ne_nil {e : List Char} (h : goodEntryB e = true) : e ≠ [] := by
  intro hcon
  subst hcon
  simp [goodEntryB] at h

theorem goodEntryB_head {e : List Char} (h : goodEntryB e = true) :
    ∀ c, e.head? = some c → isSpaceB c = false := by
  intro c hc
  rw [goodEntryB, hc] at h
  simp at h
  simpa using h.1.2

theorem goodEntryB_getLast {e : List Char} (h : goodEntryB e = true) :
    ∀ c, e.getLast? = some c → isSpaceB c = false := by
  intro c hc
  rw [goodEntryB, hc] at h
  simp at h
  simpa using h.2

theorem goodEntryB_intro {e : List Char} (h1 : e ≠ [])
    (h2 : ∀ c, e.head? = some c → isSpaceB c = false)
    (h3 : ∀ c, e.getLast? = some c → isSpaceB c = false) :
    goodEntryB e = true := by
  rw [goodEntryB]
  rcases he : e with _ | ⟨c, cl⟩
  · exact absurd he h1
  · rw [← he]
    have hh : e.head? = some ((c :: cl).head
        (by simp)) := by rw [he]; rfl
    have hne : e ≠ [] := h1
    simp only [Bool.and_eq_true, Bool.not_eq_true']
    refine ⟨⟨?_, ?_⟩, ?_⟩
    · rw [he]; simp
    · rcases hhd : e.head? with _ | d
      · simp
      · simpa using h2 d hhd
    · rcases hlt : e.getLast? with _ | d
      · simp
      · simpa using h3 d hlt

theorem attribution_getLast (pr : PR) : (attribution pr).getLast? = some ')' := by
  rw [attribution, List.getLast?_append_of_ne_nil _ (by simp [str])]
  rfl

theorem attribution_ne_nil (pr : PR) : attribution pr ≠ [] := by
  rw [attribution]
  simp [str]

theorem goodEntryB_formatEntry (pr : PR) {e : List Char} (h : goodEntryB e = true) :
    goodEntryB (formatEntry pr e) = true := by
  rw [formatEntry]
  split
  · refine goodEntryB_intro (by simp [goodEntryB_ne_nil h]) ?_ ?_
    · intro c hc
      rw [List.head?_append_of_ne_nil _ (goodEntryB_ne_nil h)] at hc
      exact goodEntryB_head h c hc
    · intro c hc
      rw [List.getLast?_append_of_ne_nil _ (attribution_ne_nil pr),
        attribution_getLast pr] at hc
      have : c = ')' := by simpa using hc.symm
      subst this
      rfl
  · exact h

theorem joinNL_append {xs ys : List (List Char)} (hx : xs ≠ []) (hy : ys ≠ []) :
    joinNL (xs ++ ys) = joinNL xs ++ '\n' :: joinNL ys := by
  induction xs with
  | nil => exact absurd rfl hx
  | cons x xs ih =>
    cases xs with
    | nil =>
      rw [List.singleton_append, joinNL_cons_of_ne hy]
      rfl
    | cons x2 xs2 =>
      rw [List.cons_append,
        joinNL_cons_of_ne (show (x2 :: xs2) ++ ys ≠ [] by simp),
        ih (by simp),
        joinNL_cons_of_ne (show x2 :: xs2 ≠ [] by simp)]
      simp

theorem joinDoubleNL_cons_of_ne {b : List Char} {bs : List (List Char)} (h : bs ≠ []) :
    renderSpec.joinDoubleNL (b :: bs)
      = b ++ '\n' :: '\n' :: renderSpec.joinDoubleNL bs := by
  cases bs with
  | nil => exact absurd rfl h
  | cons a as => rfl

theorem joinDoubleNL_ne_nil {bs : List (List Char)} (h : ∀ b ∈ bs, b ≠ [])
    (hne : bs ≠ []) : renderSpec.joinDoubleNL bs ≠ [] := by
  cases bs with
  | nil => exact absurd rfl hne
  | cons b rest =>
    cases rest with
    | nil => exact h b (by simp)
    | cons a as =>
      rw [joinDoubleNL_cons_of_ne (by simp)]
      rcases hb : b with _ | ⟨c, cl⟩
      · exact absurd hb (h b (by simp))
      · simp

theorem joinDoubleNL_head_nonspace {bs : List (List Char)}
    (h : ∀ b ∈ bs, b ≠ [] ∧ ∀ c, b.head? = some c → isSpaceB c = false) {c : Char}
    (hc : (renderSpec.joinDoubleNL bs).head? = some c) : isSpaceB c = false := by
  cases bs with
  | nil => simp [renderSpec.joinDoubleNL] at hc
  | cons b rest =>
    have hb := h b (by simp)
    have hh : (renderSpec.joinDoubleNL (b :: rest)).head? = b.head? := by
      cases rest with
      | nil => rfl
      | cons a as =>
        rw [joinDoubleNL_cons_of_ne (by simp)]
        rcases hbe : b with _ | ⟨d, dl⟩
        · exact absurd hbe hb.1
        · rfl
    rw [hh] at hc
    exact hb.2 c hc

theorem joinDoubleNL_getLast_nonspace {bs : List (List Char)}
    (h : ∀ b ∈ bs, b ≠ [] ∧ ∀ c, b.getLast? = some c → isSpaceB c = false) {c : Char}
    (hc : (renderSpec.joinDoubleNL bs).getLast? = some c) : isSpaceB c = false := by
  induction bs with
  | nil => simp [renderSpec.joinDoubleNL] at hc
  | cons b rest ih =>
    have hb := h b (by simp)
    have hrest : ∀ b' ∈ rest, b' ≠ [] ∧ ∀ c, b'.getLast? = some c → isSpaceB c = false :=
      fun b' hb' => h b' (List.mem_cons_of_mem b hb')
    cases rest with
    | nil => exact hb.2 c hc
    | cons a as =>
      rw [joinDoubleNL_cons_of_ne (by simp)] at hc
      have hne : renderSpec.joinDoubleNL (a :: as) ≠ [] :=
        joinDoubleNL_ne_nil (fun b' hb' => (hrest b' hb').1) (by simp)
      rw [List.getLast?_append_of_ne_nil _ (by simp)] at hc
      rw [show ('\n' :: '\n' :: renderSpec.joinDoubleNL (a :: as))
          = ['\n', '\n'] ++ renderSpec.joinDoubleNL (a :: as) from rfl,
        List.getLast?_append_of_ne_nil _ hne] at hc
      exact ih hrest hc

theorem render_foldl_eq (m : Mapping) :
    ∀ (cats : List (List Char)) (acc : List (List Char)),
      cats.foldl
        (fun acc cat =>
          if containsKeyB m cat = true ∧ lookupM m cat ≠ [] then
            acc ++ (str "### " ++ cat) :: (lookupM m cat).map (fun e => str "- " ++ e) ++ [[]]
          else acc) acc
      = acc
        ++ ((cats.filter
              (fun cat => decide (containsKeyB m cat = true ∧ lookupM m cat ≠ []))).map
            (fun cat =>
              ((str "### " ++ cat) :: (lookupM m cat).map (fun e => str "- " ++ e)) ++ [[]])).flatten := by
  intro cats
  induction cats with
  | nil => intro acc; simp
  | cons c cs ih =>
    intro acc
    rw [List.foldl_cons]
    by_cases hc : containsKeyB m c = true ∧ lookupM m c ≠ []
    · rw [if_pos hc, ih, List.filter_cons_of_pos (by simpa using hc)]
      simp [List.append_assoc]
    · rw [if_neg hc, ih, List.filter_cons_of_neg (by simpa using hc)]

theorem joinNL_flatten_blocks :
    ∀ (bs : List (List (List Char))), (∀ b ∈ bs, b ≠ []) → bs ≠ [] →
      joinNL ((bs.map (fun b => b ++ [[]])).flatten)
        = renderSpec.joinDoubleNL (bs.map joinNL) ++ ['\n'] := by
  intro bs
  induction bs with
  | nil => intro _ hne; exact absurd rfl hne
  | cons b rest ih =>
    intro hne _
    have hb : b ≠ [] := hne b (by simp)
    cases rest with
    | nil =>
      simp only [List.map_cons, List.map_nil, List.flatten_cons, List.flatten_nil,
        List.append_nil]
      rw [joinNL_append hb (by simp)]
      rfl
    | cons r rs =>
      have hrest : ∀ b' ∈ r :: rs, b' ≠ [] :=
        fun b' hb' => hne b' (List.mem_cons_of_mem b hb')
      have hflat : (((r :: rs).map (fun b => b ++ [[]])).flatten) ≠ [] := by
        simp only [List.map_cons, List.flatten_cons]
        have : r ++ [[]] ≠ [] := by simp
        intro hcon
        rw [List.append_eq_nil] at hcon
        exact this hcon.1
      have h1 : joinNL (((b :: r :: rs).map (fun b => b ++ [[]])).flatten)
          = joinNL b ++ '\n' :: '\n'
              :: joinNL (((r :: rs).map (fun b => b ++ [[]])).flatten) := by
        rw [List.map_cons, List.flatten_cons, List.append_assoc,
          joinNL_append hb (by simp),
          show ([[]] ++ ((r :: rs).map (fun b => b ++ [[]])).flatten)
            = [] :: ((r :: rs).map (fun b => b ++ [[]])).flatten from rfl,
          joinNL_cons_of_ne hflat]
        rfl
      rw [h1, ih hrest (by simp),
        show List.map joinNL (b :: r :: rs)
          = joinNL b :: joinNL r :: List.map joinNL rs from rfl,
        joinDoubleNL_cons_of_ne (show joinNL r :: List.map joinNL rs ≠ [] by simp)]
      simp

theorem render_eq_renderSpec (m : Mapping)
    (hm : ∀ cat ∈ category_order, ∀ e ∈ lookupM m cat, goodEntryB e = true) :
    pyStrip (joinNL (renderLines m)) = renderSpec m := by
  rw [renderLines, render_foldl_eq m category_order [], List.nil_append, renderSpec]
  by_cases hF : category_order.filter
      (fun cat => decide (containsKeyB m cat = true ∧ lookupM m cat ≠ [])) = []
  · rw [hF]
    rfl
  · have hmaps : ((category_order.filter
          (fun cat => decide (containsKeyB m cat = true ∧ lookupM m cat ≠ []))).map
            (fun cat =>
              ((str "### " ++ cat) :: (lookupM m cat).map (fun e => str "- " ++ e)) ++ [[]]))
        = (((category_order.filter
            (fun cat => decide (containsKeyB m cat = true ∧ lookupM m cat ≠ []))).map
              (fun cat =>
                (str "### " ++ cat) :: (lookupM m cat).map (fun e => str "- " ++ e))).map
            (fun b => b ++ [[]])) := by
      rw [List.map_map]
      rfl
    have hblocks : ∀ b ∈ (category_order.filter
        (fun cat => decide (containsKeyB m cat = true ∧ lookupM m cat ≠ []))).map
          (fun cat => (str "### " ++ cat) :: (lookupM m cat).map (fun e => str "- " ++ e)),
        b ≠ [] := by
      intro b hb
      obtain ⟨cat, _, hcat⟩ := List.mem_map.mp hb
      rw [← hcat]
      simp
    rw [hmaps, joinNL_flatten_blocks _ hblocks (by
      intro hcon
      rw [List.map_eq_nil_iff] at hcon
      exact hF hcon)]
    rw [List.map_map]
    have hstrs : ∀ b' ∈ (category_order.filter
        (fun cat => decide (containsKeyB m cat = true ∧ lookupM m cat ≠ []))).map
          (joinNL ∘ fun cat =>
            (str "### " ++ cat) :: (lookupM m cat).map (fun e => str "- " ++ e)),
        b' ≠ [] ∧ (∀ c, b'.head? = some c → isSpaceB c = false)
          ∧ (∀ c, b'.getLast? = some c → isSpaceB c = false) := by
      intro b' hb'
      obtain ⟨cat, hcatmem, hcat⟩ := List.mem_map.mp hb'
      have hcatord : cat ∈ category_order := List.mem_of_mem_filter hcatmem
      have hcond := List.of_mem_filter hcatmem
      have hlook : lookupM m cat ≠ [] := by
        simp only [decide_eq_true_eq] at hcond
        exact hcond.2
      have hlines : ∀ l ∈ (str "### " ++ cat) :: (lookupM m cat).map
          (fun e => str "- " ++ e), pyStrip l = l ∧ l ≠ [] := by
        intro l hl
        rcases List.mem_cons.mp hl with hl | hl
        · subst hl
          have : ∀ c ∈ category_order,
              pyStrip (str "### " ++ c) = str "### " ++ c := by decide
          exact ⟨this cat hcatord, by simp [str]⟩
        · obtain ⟨e, hemem, he⟩ := List.mem_map.mp hl
          have hge := hm cat hcatord e hemem
          subst he
          refine ⟨pyStrip_eq_self_of_ends ?_ ?_, by simp [str]⟩
          · intro c hc
            rw [List.head?_append_of_ne_nil _ (by simp [str] : str "- " ≠ [])] at hc
            have : c = '-' := by
              have : (str "- ").head? = some '-' := rfl
              rw [this] at hc
              simpa using hc.symm
            subst this
            rfl
          · intro c hc
            rw [List.getLast?_append_of_ne_nil _ (goodEntryB_ne_nil hge)] at hc
            exact goodEntryB_getLast hge c hc
      rw [← hcat]
      refine ⟨joinNL_ne_nil (fun l hl => (hlines l hl).2) (by simp), ?_, ?_⟩
      · intro c hc
        exact joinNL_head_nonspace hlines hc
      · intro c hc
        exact joinNL_getLast_nonspace hlines hc
    have hXne : renderSpec.joinDoubleNL ((category_order.filter
        (fun cat => decide (containsKeyB m cat = true ∧ lookupM m cat ≠ []))).map
          (joinNL ∘ fun cat =>
            (str "### " ++ cat) :: (lookupM m cat).map (fun e => str "- " ++ e))) ≠ [] := by
      apply joinDoubleNL_ne_nil (fun b hb => (hstrs b hb).1)
      intro hcon
      rw [List.map_eq_nil_iff] at hcon
      exact hF hcon
    rw [pyStrip]
    have hdw : ((renderSpec.joinDoubleNL ((category_order.filter
        (fun cat => decide (containsKeyB m cat = true ∧ lookupM m cat ≠ []))).map
          (joinNL ∘ fun cat =>
            (str "### " ++ cat) :: (lookupM m cat).map (fun e => str "- " ++ e)))
        ++ ['\n'])).dropWhile isSpaceB
        = renderSpec.joinDoubleNL ((category_order.filter
            (fun cat => decide (containsKeyB m cat = true ∧ lookupM m cat ≠ []))).map
              (joinNL ∘ fun cat =>
                (str "### " ++ cat) :: (lookupM m cat).map (fun e => str "- " ++ e)))
            ++ ['\n'] := by
      apply dropWhile_eq_self_of_head
      intro c hc
      rw [List.head?_append_of_ne_nil _ hXne] at hc
      exact joinDoubleNL_head_nonspace (fun b hb => ⟨(hstrs b hb).1, (hstrs b hb).2.1⟩) hc
    rw [hdw, stripRight_append_ws _ (by rfl),
      stripRight_eq_self_of_last
        (fun c hc => joinDoubleNL_getLast_nonspace
          (fun b hb => ⟨(hstrs b hb).1, (hstrs b hb).2.2⟩) hc)]
    rfl

/-- Every entry stored in the mapping is non-empty and trimmed. -/
def MapGood (m : Mapping) : Prop := ∀ p ∈ m, ∀ e ∈ p.2, goodEntryB e = true

theorem mapGood_lookup {m : Mapping} (h : MapGood m) (k : List Char) :
    ∀ e ∈ lookupM m k, goodEntryB e = true := by
  intro e he
  rw [lookupM] at he
  rcases hf : m.find? (fun p => p.1 == k) with _ | p
  · rw [hf] at he
    simp at he
  · rw [hf] at he
    exact h p (List.mem_of_find?_eq_some hf) e he

theorem mapGood_ensureKey {m : Mapping} (h : MapGood m) (k : List Char) :
    MapGood (ensureKey m k) := by
  intro p hp e he
  rw [ensureKey] at hp
  split at hp
  · exact h p hp e he
  · rcases List.mem_append.mp hp with hp | hp
    · exact h p hp e he
    · have hpk : p = (k, []) := by simpa using hp
      rw [hpk] at he
      simp at he

theorem mapGood_appendEntry {m : Mapping} (h : MapGood m) {k e : List Char}
    (hge : goodEntryB e = true) : MapGood (appendEntry m k e) := by
  intro p hp e' he'
  rw [appendEntry] at hp
  obtain ⟨q, hq, hpq⟩ := List.mem_map.mp hp
  by_cases hqk : (q.1 == k) = true
  · rw [if_pos hqk] at hpq
    rw [← hpq] at he'
    rcases List.mem_append.mp he' with he' | he'
    · exact h q hq e' he'
    · have : e' = e := by simpa using he'
      rw [this]
      exact hge
  · rw [if_neg hqk] at hpq
    rw [← hpq] at he'
    exact h q hq e' he'

theorem mapGood_addEntries (pr : PR) (cat : List Char) :
    ∀ (es : List (List Char)) (m : Mapping), MapGood m →
      (∀ e ∈ es, goodEntryB e = true) → MapGood (addEntries pr cat m es) := by
  intro es
  induction es with
  | nil => intro m hm _; exact hm
  | cons e es ih =>
    intro m hm hes
    rw [addEntries]
    split
    · exact ih m hm (fun e' he' => hes e' (List.mem_cons_of_mem e he'))
    · exact ih _
        (mapGood_appendEntry hm (goodEntryB_formatEntry pr (hes e (by simp))))
        (fun e' he' => hes e' (List.mem_cons_of_mem e he'))

theorem mapGood_parseStep {m0 : Mapping} {cur : Option (List Char)} (h : MapGood m0)
    (l : List Char) : MapGood (parseStep (m0, cur) l).1 := by
  rw [parseStep]
  by_cases he : pyStrip l = []
  · simpa [he] using h
  · simp only [if_neg he]
    rcases hch : categoryHeading (pyStrip l) with _ | cat
    · simp only [hch]
      by_cases hb : (pyStrip l).head? = some '-' ∨ (pyStrip l).head? = some '*'
      · simp only [if_pos hb]
        rcases cur with _ | c
        · exact h
        · simp only []
          split
          next hent =>
            exact mapGood_appendEntry h
              (goodEntryB_intro hent (fun d hd => head_pyStrip hd)
                (fun d hd => getLast_pyStrip hd))
          next hent => exact h
      · simpa [hb] using h
    · simp only [hch]
      by_cases hv : cat ∈ VALID_CATEGORIES
      · simp only [if_pos hv]
        exact mapGood_ensureKey h cat
      · simpa [hv] using h

theorem mapGood_parse (content : List Char) : MapGood (parse_release_notes content) := by
  rw [parse_release_notes]
  have hfold : ∀ (lines : List (List Char)) (st : Mapping × Option (List Char)),
      MapGood st.1 → MapGood ((lines.foldl parseStep st).1) := by
    intro lines
    induction lines with
    | nil => intro st h; exact h
    | cons l ls ih =>
      intro st h
      rw [List.foldl_cons]
      obtain ⟨m0, cur⟩ := st
      exact ih _ (mapGood_parseStep h l)
  exact hfold _ ([], none) (by intro p hp; simp at hp)

theorem mapGood_foldl_addEntries (pr : PR) :
    ∀ (ps : Mapping) (m : Mapping), MapGood m →
      (∀ p ∈ ps, ∀ e ∈ p.2, goodEntryB e = true) →
      MapGood (ps.foldl (fun acc p => addEntries pr p.1 (ensureKey acc p.1) p.2) m) := by
  intro ps
  induction ps with
  | nil => intro m hm _; exact hm
  | cons p ps ih =>
    intro m hm hps
    rw [List.foldl_cons]
    exact ih _
      (mapGood_addEntries pr p.1 p.2 _ (mapGood_ensureKey hm p.1) (hps p (by simp)))
      (fun q hq => hps q (List.mem_cons_of_mem p hq))

theorem mapGood_aggregatePR {m : Mapping} (h : MapGood m) (pr : PR) :
    MapGood (aggregatePR m pr) := by
  rw [aggregatePR]
  rcases hex : extract_release_notes_section pr.body with _ | rn
  · exact h
  · simp only []
    by_cases hopt : is_opt_out rn = true
    · simpa [hopt] using h
    · simp only [if_neg hopt]
      exact mapGood_foldl_addEntries pr _ m h
        (fun p hp e5 he5 => mapGood_parse rn p hp e5 he5)

theorem mapGood_aggregateAll (prs : List PR) : MapGood (aggregateAll prs) := by
  rw [aggregateAll]
  have hfold : ∀ (l : List PR) (m : Mapping), MapGood m → MapGood (l.foldl aggregatePR m) := by
    intro l
    induction l with
    | nil => intro m hm; exact hm
    | cons pr l ih =>
      intro m hm
      rw [List.foldl_cons]
      exact ih _ (mapGood_aggregatePR hm pr)
  exact hfold prs [] (by intro p hp; simp at hp)

/-- Claim C7: the aggregator renders categories in the fixed canonical order
Added, Changed, Deprecated, Removed, Fixed, Security regardless of input
order, omits categories with no surviving entries, renders each entry as a
`- ` bullet under its `###` heading with a blank separator line between
category blocks and no trailing blank, and yields exactly the empty string
for zero PRs or when no entries survive. -/
theorem c7_render_canonical_order :
    format_changelog_from_prs [] = []
      ∧ (∀ m : Mapping,
          (∀ cat ∈ category_order, ∀ e ∈ lookupM m cat, goodEntryB e = true) →
          pyStrip (joinNL (renderLines m)) = renderSpec m)
      ∧ (∀ prs : List PR, format_changelog_from_prs prs = renderSpec (aggregateAll prs))
      ∧ (∀ prs : List PR, (∀ p ∈ aggregateAll prs, p.2 = ([] : List (List Char))) →
          format_changelog_from_prs prs = [])
      ∧ format_changelog_from_prs
          [⟨7, str "https://e/7", str "carol", str "https://e/carol",
             str "## Release Notes\n### Security\n- s fix\n### Added\n- a feat\n"⟩]
        = str "### Added\n- a feat [#7](https://e/7) [carol](https://e/carol)\n\n### Security\n- s fix [#7](https://e/7) [carol](https://e/carol)" := by
  have hagg : ∀ prs : List PR,
      format_changelog_from_prs prs = renderSpec (aggregateAll prs) := by
    intro prs
    rw [format_changelog_from_prs]
    exact render_eq_renderSpec _
      (fun cat _ e he => mapGood_lookup (mapGood_aggregateAll prs) cat e he)
  refine ⟨by decide, fun m hm => render_eq_renderSpec m hm, hagg, ?_, by decide⟩
  intro prs hall
  rw [hagg prs, renderSpec]
  have hfil : category_order.filter
      (fun cat => decide (containsKeyB (aggregateAll prs) cat = true
        ∧ lookupM (aggregateAll prs) cat ≠ [])) = [] := by
    rw [List.filter_eq_nil_iff]
    intro cat _
    simp only [decide_eq_true_eq, not_and]
    intro _
    rcases hf : (aggregateAll prs).find? (fun p => p.1 == cat) with _ | p
    · simp [lookupM, hf]
    · simp [lookupM, hf, hall p (List.mem_of_find?_eq_some hf)]
  rw [hfil]
  rfl

/-- Witness for Claim C7: the render equivalence at a concrete mapping whose
categories arrive in non-canonical order, and the empty output for a PR
list whose only record opts out. -/
theorem c7_witness :
    (pyStrip (joinNL (renderLines [(str "Security", [str "s"]), (str "Added", [str "a"])]))
        = renderSpec [(str "Security", [str "s"]), (str "Added", [str "a"])])
      ∧ format_changelog_from_prs
          [⟨3, str "https://e/3", str "dana", str "https://e/dana",
             str "## Release Notes\nNONE\n"⟩] = [] :=
  ⟨c7_render_canonical_order.2.1 _ (by decide),
   c7_render_canonical_order.2.2.2.1 _ (by decide)⟩

end ReleaseNotes
